import Mathlib

/-!
Verification development for the `Solution` post-processing layer of
`bioptim/optimization/solution.py` (multi-phase optimal-control solution
container: decoding, integration, interpolation, phase merging).

The Python code is shallowly embedded:
* a 2D numpy array (rows = variable components, columns = time nodes) is a
  `Mat`, stored as its list of COLUMNS (all column operations of the source —
  `[:, :k]`, `[:, -1]`, `np.concatenate(axis=1)` — become list operations);
* the per-phase `dict` of named arrays is an association list `Dict`;
* Python exceptions become an `Except PyErr` result;
* numpy entries are modelled over `ℤ`: the claims under verification are
  structural (shapes, flags, data movement, error paths) and never depend on
  non-integer arithmetic, and exact integers keep every concrete run
  kernel-evaluable (floating point itself is out of scope);
* `np.ndarray(shape)` allocates uninitialized memory; it is modelled as a
  zero-filled matrix — every claim that inspects such a buffer carries the
  well-formedness hypotheses under which the source overwrites every cell;
* in-place mutation through numpy views (the `x0 += val` statement of
  `integrate`, where `x0` can still be the basic-slicing view
  `self._states[0]["all"][:, 0]`) is modelled by threading the receiver's
  `_states` explicitly: `integrate` returns the pair of its result and the
  receiver's `_states` after the call.
-/

namespace Bioptim

/-- A column of a 2D numpy array (entries down the rows). -/
abbrev Col := List ℤ

/-- A 2D numpy array, stored as its list of columns. -/
abbrev Mat := List Col

/-- A Python `dict` mapping variable names to 2D arrays (insertion order kept). -/
abbrev Dict := List (String × Mat)

/-- `arr.shape[0]`: the number of rows (length of the first column; 0-column
arrays report 0 rows, which no claim site inspects). -/
def shape0 (m : Mat) : ℕ := (m.headD []).length

/-- `arr[:, i]` (a numpy integer-index read; out-of-range, which raises
`IndexError` in Python, is defaulted — all claim sites are in range). -/
def colGet (m : Mat) (i : ℕ) : Col := m.getD i []

/-- `arr[:, -1]` (last column; `IndexError` on a 0-column array not modelled). -/
def lastColD (m : Mat) : Col := m.getLastD []

/-- `d[key]` on a Python dict (a missing key raises `KeyError` in Python;
defaulted here — all claim sites carry presence hypotheses). -/
def dget (d : Dict) (k : String) : Mat := (d.lookup k).getD []

/-- Row `j` of an array (used by the interpolator, which fits row by row). -/
def rowOf (m : Mat) (j : ℕ) : List ℤ := m.map (fun c => c.getD j 0)

/-- `arr[off : off + sz]` — a numpy row-slice keeping all columns. -/
def rowSlice (m : Mat) (off sz : ℕ) : Mat := m.map (fun c => (c.drop off).take sz)

/-- `arr[:, start : start + len(cs)] = cs` — write consecutive columns
(writes past the end are dropped; the source's numpy raises there, and every
claim site carries in-range hypotheses). -/
def writeCols : Mat → ℕ → Mat → Mat
  | m, _, [] => m
  | m, i, c :: cs => writeCols (m.set i c) (i + 1) cs

/-- `np.linspace a b n` (over the integer scalar model, with rounding
division; the produced time grids are only ever passed to the abstract
interpolator and no claim inspects their values). -/
def linspace (a b : ℤ) (n : ℕ) : List ℤ :=
  if n ≤ 1 then List.replicate n a
  else (List.range n).map (fun i => a + (b - a) * i / (n - 1))

/-- Assemble an `(nrows, ncols)` array from its rows (every row is written by
the source before use, so no uninitialized cells remain). -/
def matFromRows (rows : List (List ℤ)) (ncols : ℕ) : Mat :=
  (List.range ncols).map (fun i => rows.map (fun r => r.getD i 0))

/-- Equality of `dict_keys` views (`d.keys() != keys` in Python compares as
sets). -/
def keysMatch (a b : List String) : Bool :=
  a.all (fun k => b.contains k) && b.all (fun k => a.contains k)

/-- The two control types the source supports, plus a stand-in for any other
member of the Python `ControlType` enum. -/
inductive ControlType
  | CONSTANT
  | LINEAR_CONTINUOUS
  | NONE
  deriving DecidableEq, Repr

/-- The Python name of a control type (used in error message formatting). -/
def ControlType.pyStr : ControlType → String
  | .CONSTANT => "ControlType.CONSTANT"
  | .LINEAR_CONTINUOUS => "ControlType.LINEAR_CONTINUOUS"
  | .NONE => "ControlType.NONE"

/-- The `Shooting` enum of the source. -/
inductive Shooting
  | MULTIPLE
  | SINGLE
  | SINGLE_RESET_AT_PHASE
  deriving DecidableEq, Repr

/-- Python exceptions raised by the embedded code. -/
inductive PyErr
  | runtimeError (msg : String)
  | valueError (msg : String)
  | notImplementedError (msg : String)
  | indexError
  deriving DecidableEq, Repr

/-- `Solution.SimplifiedNLP`: the per-phase snapshot.  `dynamics` models the
list of per-interval casadi step functions (`dynamics[n](x0=…, p=…, params=…)["xall"]`)
as a function of the interval index returning the `xall` trajectory matrix. -/
structure SimplifiedNLP where
  n_integration_steps : ℕ
  var_states : List (String × ℕ)
  control_type : ControlType
  ns : ℕ
  dynamics : ℕ → Col → Mat → Mat → Mat

/-- A default phase snapshot (used only to model Python's `IndexError` sites:
`ocp.nlp[p]` with `p` out of range never occurs under the claims' hypotheses). -/
def defaultNLP : SimplifiedNLP :=
  { n_integration_steps := 0, var_states := [], control_type := .NONE, ns := 0,
    dynamics := fun _ _ _ _ => [] }

/-- `Solution.SimplifiedOCP`: every phase snapshot plus the phase-transition
casadi functions (each a function of the full decision vector). -/
structure SimplifiedOCP where
  nlp : List SimplifiedNLP
  phase_transitions : List (Col → Col)

/-- The `Solution` object.  `_states`/`_controls` are the per-phase decoded
dictionaries; a Python `None` (set by `copy(skip_data=True)`) is modelled as
the empty list, which matches every truthiness test the source performs. -/
structure Solution where
  ocp : SimplifiedOCP
  vector : Col
  is_interpolated : Bool
  is_integrated : Bool
  is_merged : Bool
  _states : List Dict
  _controls : List Dict
  _parameters : Dict
  phase_time : List ℤ
  ns : List ℕ

/-- `Solution.copy(skip_data)`: a deep copy; in the pure embedding only the
`skip_data=True` clearing of the decoded data is observable. -/
def Solution.copy (s : Solution) (skip_data : Bool) : Solution :=
  if skip_data then { s with _states := [], _controls := [], _parameters := [] } else s

/-- The error raised by `_merge`'s cross-phase sanity check. -/
def coherenceErr : PyErr :=
  .runtimeError "Program dimension must be coherent across phases to merge_phases them"

/-- The key list of a phase dictionary, in insertion order. -/
def keysOf (d : Dict) : List String := d.map Prod.fst

/-- `[d[key].shape[0] for key in d]` — per-key row counts in insertion order. -/
def sizesOf (d : Dict) : List ℕ := d.map (fun kv => shape0 kv.2)

/-- `_merge`'s sanity check: all phases must expose the same key set and the
same per-key row counts as phase 0 (`data[0]` of an empty list would raise in
Python; both call sites guarantee at least two phases). -/
def coherent (data : List Dict) : Bool :=
  match data with
  | [] => true
  | d0 :: _ =>
      data.all (fun d =>
        keysMatch (keysOf d) (keysOf d0) && (sizesOf d == sizesOf d0))

/-- The per-phase accumulation loop of `_merge`: for each phase `p`, append
`d[key][:, : self.ns[p]]` to every accumulated key (iterating `d`'s keys and
updating the accumulator dict agree because the sanity check forced equal
key sets). -/
def mergeLoop (ns : List ℕ) : ℕ → Dict → List Dict → Dict
  | _, acc, [] => acc
  | p, acc, d :: ds =>
      mergeLoop ns (p + 1)
        (acc.map (fun kv => (kv.1, kv.2 ++ (dget d kv.1).take (ns.getD p 0)))) ds

/-- The `_merge` closure of `_merge_phases` on a list of phase dictionaries
(its `isinstance(data, dict)` early return is unreachable from
`_merge_phases`, which only passes multi-phase lists). -/
def _merge (ns : List ℕ) (force_skip_last_copy : Bool) (data : List Dict) :
    Except PyErr (List Dict) :=
  if coherent data then
    let init : Dict := (data.headD []).map (fun kv => (kv.1, ([] : Mat)))
    let merged := mergeLoop ns 0 init data
    let merged2 :=
      if force_skip_last_copy then merged
      else merged.map (fun kv => (kv.1, kv.2 ++ [lastColD (dget (data.getLastD []) kv.1)]))
    .ok [merged2]
  else .error coherenceErr

/-- `Solution._merge_phases`.  Skipped components are Python `None`, modelled
as `[]`; both call sites that skip a component also discard it. -/
def Solution._merge_phases (s : Solution)
    (skip_states skip_controls force_skip_last_copy : Bool) :
    Except PyErr (List Dict × List Dict × List ℤ × List ℕ) :=
  if s.is_merged || s._states.length == 1 then
    .ok (s._states, s._controls, s.phase_time, s.ns)
  else do
    let out_states ←
      if !skip_states && !s._states.isEmpty then
        _merge s.ns force_skip_last_copy s._states
      else .ok []
    let out_controls ←
      if !skip_controls && !s._controls.isEmpty then
        _merge s.ns force_skip_last_copy s._controls
      else .ok []
    .ok (out_states, out_controls,
         [0, (s.phase_time.drop 1).sum], [s.ns.sum])

/-- `Solution.merge_phases`: copy, merge everything, set `is_merged`
(`new._parameters = deepcopy(self._parameters)` keeps the parameters). -/
def Solution.merge_phases (s : Solution) : Except PyErr Solution := do
  let r ← s._merge_phases false false false
  .ok { s with _states := r.1, _controls := r.2.1,
               phase_time := r.2.2.1, ns := r.2.2.2, is_merged := true }

/-- `_complete_control`'s per-dict transformation for a `CONSTANT` phase:
duplicate the last control column of every named array. -/
def dupLastDict (d : Dict) : Dict :=
  d.map (fun kv => (kv.1, kv.2 ++ [lastColD kv.2]))

/-- The `NotImplementedError` message of `_complete_control` (the source's
f-string, with the enum member printed by `ControlType.pyStr`). -/
def completeControlMsg (ct : ControlType) : String :=
  "ControlType " ++ ct.pyStr ++ " is not implemented  in _complete_control"

/-- `Solution._complete_control`: after decoding, for every `CONSTANT`-control
phase duplicate the last control column; `LINEAR_CONTINUOUS` phases are left
alone; anything else raises.  The Python loop iterates `ocp.nlp` and indexes
`self._controls[p]` (an `IndexError` when the controls list is shorter);
control dictionaries beyond the phase count are left untouched. -/
def _complete_control : List SimplifiedNLP → List Dict → Except PyErr (List Dict)
  | [], cs => .ok cs
  | _ :: _, [] => .error .indexError
  | nlp :: nlps, c :: cs =>
      match nlp.control_type with
      | .CONSTANT => do
          let rest ← _complete_control nlps cs
          .ok (dupLastDict c :: rest)
      | .LINEAR_CONTINUOUS => do
          let rest ← _complete_control nlps cs
          .ok (c :: rest)
      | ct => .error (.notImplementedError (completeControlMsg ct))

/-- The `n_frames` argument of `interpolate` (`Union[int, list, tuple]`). -/
inductive NFrames
  | int (n : ℕ)
  | list (l : List ℕ)

/-- The ValueError raised by `interpolate` for a malformed `n_frames`. -/
def nFramesErr : PyErr :=
  .valueError "n_frames should either be a int to merge_phases phases or a list of int of the number of phases dimension"

/-- numpy's broadcast error, raised when an assignment's shapes disagree. -/
def broadcastErr : PyErr := .valueError "could not broadcast input array"

/-- The per-key loop of `interpolate`: each named sub-array of the output is a
row-slice view of the freshly interpolated `"all"` array, at the running
offset, skipping the `"all"` entry itself. -/
def interpKeysGo (allM : Mat) : ℕ → Dict → Dict
  | _, [] => []
  | off, kv :: rest =>
      if kv.1 = "all" then interpKeysGo allM off rest
      else (kv.1, rowSlice allM off (shape0 kv.2)) :: interpKeysGo allM (off + shape0 kv.2) rest

/-- One phase of `interpolate`: fit every row of `"all"` over the phase's time
span (`interp` stands for scipy's `splrep`/`splev` pair: it maps the sample
times, one row of samples and the query times to the interpolated row), then
redistribute the rows to the named keys.  The row-length test models numpy's
broadcast check on `x_interpolate[j, :] = …` (scipy always returns
`len(t_int)` values, so it never fires with the real interpolator). -/
def interpPhase (interp : List ℤ → List ℤ → List ℤ → List ℤ)
    (pt : List ℤ) (frames : List ℕ) (p : ℕ) (d : Dict) : Except PyErr Dict :=
  let x_phase := dget d "all"
  let nf := frames.getD p 0
  let t_phase := linspace (pt.getD p 0) (pt.getD p 0 + pt.getD (p + 1) 0) x_phase.length
  let t_int := linspace (t_phase.headD 0) (t_phase.getLastD 0) nf
  let rows := (List.range (shape0 x_phase)).map (fun j => interp t_phase (rowOf x_phase j) t_int)
  if rows.all (fun r => r.length == nf) then
    let allM := matFromRows rows nf
    .ok (("all", allM) :: interpKeysGo allM 0 d)
  else .error broadcastErr

/-- The phase loop of `interpolate`. -/
def interpLoop (interp : List ℤ → List ℤ → List ℤ → List ℤ)
    (pt : List ℤ) (frames : List ℕ) : ℕ → List Dict → Except PyErr (List Dict)
  | _, [] => .ok []
  | p, d :: ds => do
      let d' ← interpPhase interp pt frames p d
      let rest ← interpLoop interp pt frames (p + 1) ds
      .ok (d' :: rest)

/-- `Solution.interpolate(n_frames)`: a single `int` first merges the phases
(`skip_controls=True`) and marks the result merged; a list must have one entry
per phase.  The output is built on `copy(skip_data=True)`, so controls and
parameters are dropped (Python `None`). -/
def Solution.interpolate (s : Solution)
    (interp : List ℤ → List ℤ → List ℤ → List ℤ) (n_frames : NFrames) :
    Except PyErr Solution :=
  match n_frames with
  | .int n => do
      let r ← s._merge_phases false true false
      let st ← interpLoop interp r.2.2.1 [n] 0 r.1
      .ok { s with _states := st, _controls := [], _parameters := [],
                   phase_time := r.2.2.1, ns := r.2.2.2,
                   is_merged := true, is_interpolated := true }
  | .list l =>
      if l.length == s._states.length then do
        let st ← interpLoop interp s.phase_time l 0 s._states
        .ok { s with _states := st, _controls := [], _parameters := [],
                     is_interpolated := true }
      else .error nFramesErr

/-- The guard errors of `integrate` (the spec's `InvalidStateTransition`). -/
def integrateTwiceErr : PyErr := .runtimeError "Cannot integrate twice"

/-- Guard error: integrating after `interpolate`. -/
def integrateAfterInterpErr : PyErr := .runtimeError "Cannot integrate after interpolating"

/-- Guard error: integrating after `merge_phases`. -/
def integrateAfterMergeErr : PyErr := .runtimeError "Cannot integrate after merging phases"

/-- The phase-transition dimension error of `integrate` under `SINGLE`
shooting (the source interpolates the offending size into the message; the
constant text is kept). -/
def transitionErr : PyErr :=
  .runtimeError "Phase transition must have the same number of states when integrating with Shooting.SINGLE. If it is not possible, please integrate with Shooting.SINGLE_RESET_AT_PHASE"

/-- The control `u` fed to the dynamics at interval `n`:
`CONSTANT` passes column `n`, `LINEAR_CONTINUOUS` the two columns `n, n+1`
(a Python slice, so it silently shortens at the boundary); any other control
type raises. -/
def getU (ct : ControlType) (controlsAll : Mat) (n : ℕ) : Except PyErr Mat :=
  match ct with
  | .CONSTANT => .ok [colGet controlsAll n]
  | .LINEAR_CONTINUOUS => .ok ((controlsAll.drop n).take 2)
  | ct => .error (.notImplementedError ("ControlType " ++ ct.pyStr ++ " not yet implemented in integrating"))

/-- Write the new value of the aliased column back into the receiver's
states: `x0 += val` mutates `self._states[q]["all"][:, j]` through the numpy
view when `x0` still aliases it.  (Whether the *named* sub-arrays of the
receiver share that buffer depends on the external decoder and is not
modelled; the claims inspect the `"all"` entry.) -/
def writeSelfCol (st : List Dict) (q j : ℕ) (c : Col) : List Dict :=
  st.set q ((st.getD q []).map (fun kv => if kv.1 = "all" then (kv.1, kv.2.set j c) else kv))

/-- The pre-node-loop `x0` handling of a phase: under `SINGLE` shooting a
phase `p ≠ 0` adds the phase-transition value in place (`x0 += val`, written
through the receiver view that `x0` may still alias); otherwise `x0` is reset
to the phase's first decoded column (a fresh view `(p, 0)`). -/
def phaseStart (transitions : List (Col → Col)) (vec : Col) (shooting : Shooting)
    (p : ℕ) (selfAll : Mat) (x0 : Col) (al : Option (ℕ × ℕ)) (st : List Dict) :
    Except PyErr (Col × Option (ℕ × ℕ) × List Dict) :=
  if shooting = .SINGLE then
    if p ≠ 0 then
      let val := (transitions.getD (p - 1) (fun _ => [])) vec
      if val.length = x0.length then
        let x0' := List.zipWith (· + ·) x0 val
        let st' := match al with
          | some qj => writeSelfCol st qj.1 qj.2 x0'
          | none => st
        .ok (x0', al, st')
      else .error transitionErr
    else .ok (x0, al, st)
  else .ok (colGet selfAll 0, some (p, 0), st)

/-- The node loop of `integrate` for one phase: at interval `n`, evaluate the
dynamics at `x0`, write the `xall` trajectory into columns
`n*n_steps … n*n_steps + ncw - 1` of the output (`ncw` is `n_steps + 1` when
continuous, `n_steps` otherwise; a column-count mismatch is numpy's broadcast
error), then move `x0`: `MULTIPLE` re-reads the decoded column `n+1` (a view
`(p, n+1)` into the receiver), every other mode chains `integrated[:, -1]`
(a view into the fresh temporary, alias `none`). -/
def nodeLoop (dyn : ℕ → Col → Mat → Mat → Mat) (ct : ControlType)
    (shooting : Shooting) (n_steps ncw p : ℕ) (selfAll controlsAll params : Mat) :
    ℕ → ℕ → Mat → Col → Option (ℕ × ℕ) →
    Except PyErr (Mat × Col × Option (ℕ × ℕ))
  | 0, _, all, x0, al => .ok (all, x0, al)
  | fuel + 1, n, all, x0, al => do
      let u ← getU ct controlsAll n
      let integrated := dyn n x0 u params
      if integrated.length = ncw then
        let all' := writeCols all (n * n_steps) integrated
        let x0' := if shooting = .MULTIPLE then colGet selfAll (n + 1) else lastColD integrated
        let al' : Option (ℕ × ℕ) := if shooting = .MULTIPLE then some (p, n + 1) else none
        nodeLoop dyn ct shooting n_steps ncw p selfAll controlsAll params fuel (n + 1) all' x0' al'
      else .error broadcastErr

/-- "Dispatch the integrated values to all the keys": each named state gets a
row-slice of the phase's `"all"` array at the running offset. -/
def dispatchKeys (allM : Mat) : ℕ → List (String × ℕ) → Dict
  | _, [] => []
  | off, (k, sz) :: rest => (k, rowSlice allM off sz) :: dispatchKeys allM (off + sz) rest

/-- The phase loop of `integrate`.  Carries `x0`, the alias record of the
numpy view `x0` currently is (phase, column of the receiver's `"all"` array,
or `none` for a temporary), and the receiver's `_states` (mutated only by the
in-place `x0 += val` of `phaseStart`).  Returns the built per-phase output
dictionaries and the per-phase `out.ns[p] *= n_steps` values, alongside the
receiver's `_states` after the call — also on error, since Python raises
after any mutations already made. -/
def phaseLoop (nlps : List SimplifiedNLP) (transitions : List (Col → Col))
    (vec : Col) (nsSelf : List ℕ) (controls : List Dict) (params : Mat)
    (shooting : Shooting) (continuous : Bool) :
    ℕ → ℕ → Col → Option (ℕ × ℕ) → List Dict →
    (Except PyErr (List Dict × List ℕ)) × List Dict
  | 0, _, _, _, st => (.ok ([], []), st)
  | fuel + 1, p, x0, al, st =>
      let nlp := nlps.getD p defaultNLP
      let selfAll := dget (st.getD p []) "all"
      let n_steps := if continuous then nlp.n_integration_steps else nlp.n_integration_steps + 1
      let width := if continuous then (selfAll.length - 1) * n_steps + 1
                   else (selfAll.length - 1) * n_steps
      let init : Mat := List.replicate width (List.replicate (shape0 selfAll) (0 : ℤ))
      match phaseStart transitions vec shooting p selfAll x0 al st with
      | .error e => (.error e, st)
      | .ok (x0₁, al₁, st₁) =>
          let controlsAll := dget (controls.getD p []) "all"
          let ncw := if continuous then n_steps + 1 else n_steps
          match nodeLoop nlp.dynamics nlp.control_type shooting n_steps ncw p selfAll
              controlsAll params (nsSelf.getD p 0) 0 init x0₁ al₁ with
          | .error e => (.error e, st₁)
          | .ok (allM, x0₂, al₂) =>
              let dict := ("all", allM) :: dispatchKeys allM 0 nlp.var_states
              match phaseLoop nlps transitions vec nsSelf controls params shooting continuous
                  fuel (p + 1) x0₂ al₂ st₁ with
              | (.error e, st₂) => (.error e, st₂)
              | (.ok (ds, nss), st₂) =>
                  (.ok (dict :: ds, (nsSelf.getD p 0) * n_steps :: nss), st₂)

/-- `Solution.integrate(shooting_type, merge_phases, continuous)`.  The first
component is the Python return value (or the raised exception); the second is
the receiver's `_states` after the call, capturing the in-place `x0 += val`
mutation through the numpy view (see `phaseStart`).  The guards come first;
an empty `_states` then models the `self._states[0]` `IndexError`.  On
success the result is built on `copy(skip_data=True)`, so its controls and
parameters are Python `None`, `out.ns[p]` was multiplied per phase, and the
optional merge runs `_merge_phases(skip_controls=True,
force_skip_last_copy=not continuous)` on the output. -/
def Solution.integrate (s : Solution) (shooting : Shooting)
    (merge_phases_arg : Bool) (continuous : Bool) :
    (Except PyErr Solution) × List Dict :=
  if s.is_integrated then (.error integrateTwiceErr, s._states)
  else if s.is_interpolated then (.error integrateAfterInterpErr, s._states)
  else if s.is_merged then (.error integrateAfterMergeErr, s._states)
  else if s._states.isEmpty then (.error .indexError, s._states)
  else
    match phaseLoop s.ocp.nlp s.ocp.phase_transitions s.vector s.ns s._controls
        (dget s._parameters "all") shooting continuous s._states.length 0
        (colGet (dget (s._states.getD 0 []) "all") 0) (some (0, 0)) s._states with
    | (.error e, st) => (.error e, st)
    | (.ok (outStates, outNs), st) =>
        if merge_phases_arg then
          match Solution._merge_phases
              { s with _states := outStates, _controls := [], _parameters := [],
                       ns := outNs ++ s.ns.drop s._states.length }
              false true (!continuous) with
          | .error e => (.error e, st)
          | .ok r =>
              (.ok { s with _states := r.1, _controls := [], _parameters := [],
                            phase_time := r.2.2.1, ns := r.2.2.2,
                            is_merged := true, is_integrated := true }, st)
        else
          (.ok { s with _states := outStates, _controls := [], _parameters := [],
                        ns := outNs ++ s.ns.drop s._states.length,
                        is_integrated := true }, st)

/-- An initial guess: only its shape matters to the constructor's sanity
checks (`check_and_adjust_dimensions` and the vector build are downstream of
the checks the claims are about). -/
structure Guess where
  shape : ℕ × ℕ
  deriving DecidableEq, Repr

/-- One entry of the `sol` list handed to `init_from_initial_guess`:
an `InitialGuess`, an `InitialGuessList`, or any other sized sequence (for
example a plain Python list of guesses), which the conversion loop leaves
untouched and `isinstance(s, InitialGuessList)` rejects. -/
inductive GuessEntry
  | ig (g : Guess)
  | igl (gs : List Guess)
  | rawList (gs : List Guess)
  deriving DecidableEq, Repr

/-- The conversion loop of `init_from_initial_guess`: every `InitialGuess` is
replaced by an `InitialGuessList` holding one copy per phase. -/
def convertEntry (nPhases : ℕ) : GuessEntry → GuessEntry
  | .ig g => .igl (List.replicate nPhases g)
  | e => e

/-- `isinstance(s, InitialGuessList)`. -/
def isIGL : GuessEntry → Bool
  | .igl _ => true
  | _ => false

/-- `len(s)` on an entry. -/
def entryLen : GuessEntry → ℕ
  | .ig _ => 1
  | .igl gs => gs.length
  | .rawList gs => gs.length

/-- The error of the first sanity check (`sum(isinstance(...)) != 2`). -/
def guessCountErr : PyErr :=
  .valueError "solution must be a solution dict, an InitialGuess[List] of len 2 or 3 (states, controls, parameters), or a None"

/-- The error of the second sanity check. -/
def guessLenErr : PyErr :=
  .valueError "The InitialGuessList len must match the number of phases"

/-- The sanity-check block of `init_from_initial_guess` (`__init__` has
already checked `len(sol) ∈ {2, 3}` before dispatching here).

Faithful quirks of the source, kept on purpose:
* the second check's guard is `p != 3`, which is always true for `p <
  len(sol) ≤ 3`, so **every** entry — the parameter entry included — must
  have length equal to the phase count;
* the third check is the `and`-chain
  `len(sol) != 3 and len(sol[2]) != 1 and sol[2][0].shape != (n_param, 1)`:
  with `len(sol) == 3` the first conjunct is `False` and no parameter
  validation happens at all; with `len(sol) == 2` evaluating `len(sol[2])`
  raises `IndexError` — so the `ValueError` about the parameter vector is
  unreachable. -/
def initGuessChecks (nPhases nParam : ℕ) (sol0 : List GuessEntry) :
    Except PyErr Unit :=
  let sol := sol0.map (convertEntry nPhases)
  if sol.countP (fun e => isIGL e) ≠ 2 then .error guessCountErr
  else if !(sol.all (fun e => entryLen e == nPhases)) then .error guessLenErr
  else if nParam ≠ 0 then
    if sol.length ≠ 3 then .error .indexError
    else .ok ()
  else .ok ()

/-- The spec's `InvalidStateTransition` class: the three guard errors of
`integrate`. -/
def IsInvalidStateTransition (e : PyErr) : Prop :=
  e = integrateTwiceErr ∨ e = integrateAfterInterpErr ∨ e = integrateAfterMergeErr

/-- Claim-side reference for `_merge_phases` (C3), written from the spec's
words: each named array is the column-wise concatenation over the phases of
all columns but the last, with the final phase's last column appended. -/
def mergeSpec (data : List Dict) : Dict :=
  (data.headD []).map (fun kv =>
    (kv.1, (data.map (fun d => (dget d kv.1).dropLast)).flatten
            ++ [lastColD (dget (data.getLastD []) kv.1)]))

deriving instance DecidableEq for Except

/-- Whether an embedded Python call returned normally. -/
def isOkE {α : Type} (r : Except PyErr α) : Bool :=
  match r with
  | .ok _ => true
  | .error _ => false

/-- A default `Solution` (the `sol=None` sentinel shape), used only to read
fields out of an `Except` result. -/
def emptySol : Solution :=
  { ocp := { nlp := [], phase_transitions := [] }, vector := [],
    is_interpolated := false, is_integrated := false, is_merged := false,
    _states := [], _controls := [], _parameters := [], phase_time := [], ns := [] }

/-- The raised exception of a failed call, if any. -/
def errOf {α : Type} (r : Except PyErr α) : Option PyErr :=
  match r with
  | .error e => some e
  | .ok _ => none

/-- The returned `Solution` of a successful call (defaulted on error). -/
def resSol (r : Except PyErr Solution) : Solution :=
  match r with
  | .ok o => o
  | .error _ => emptySol

/-- The `_states` of a call's result. -/
def statesOf (r : Except PyErr Solution) : List Dict := (resSol r)._states

/-- The `_controls` of a call's result. -/
def controlsOf (r : Except PyErr Solution) : List Dict := (resSol r)._controls

/-- The `phase_time` of a call's result. -/
def ptOf (r : Except PyErr Solution) : List ℤ := (resSol r).phase_time

/-- The `ns` of a call's result. -/
def nsOf (r : Except PyErr Solution) : List ℕ := (resSol r).ns

/-- The result of `_complete_control` (defaulted on error). -/
def resList (r : Except PyErr (List Dict)) : List Dict :=
  match r with
  | .ok l => l
  | .error _ => []

/-- How many of the three one-way flags a derived Solution newly set. -/
def newFlags (a b : Solution) : ℕ :=
  (if !a.is_integrated && b.is_integrated then 1 else 0)
    + (if !a.is_interpolated && b.is_interpolated then 1 else 0)
    + (if !a.is_merged && b.is_merged then 1 else 0)

/-- A one-interval phase whose dynamics are the identity step: every column
of the returned `xall` trajectory equals the input state. -/
def idNLP : SimplifiedNLP :=
  { n_integration_steps := 1, var_states := [("q", 1)], control_type := .CONSTANT,
    ns := 1, dynamics := fun _ x0 _ _ => [x0, x0] }

/-- A fresh single-phase Solution: one 1-row state over 2 nodes (`[0, 1]`),
completed `CONSTANT` controls, one parameter. -/
def sFresh : Solution :=
  { ocp := { nlp := [idNLP], phase_transitions := [] }, vector := [0, 5, 5, 2],
    is_interpolated := false, is_integrated := false, is_merged := false,
    _states := [[("all", [[0], [1]]), ("q", [[0], [1]])]],
    _controls := [[("all", [[5], [5]])]],
    _parameters := [("all", [[2]])],
    phase_time := [0, 1], ns := [1] }

/-- `sFresh` after its flags were all already set (a previously integrated,
interpolated and merged lineage). -/
def sDone : Solution :=
  { sFresh with is_integrated := true, is_interpolated := true, is_merged := true }

/-- A two-phase Solution whose first phase has zero shooting intervals
(`ns = [0, 1]`), with an additive phase transition of value `[1]` — the
degenerate input on which `integrate` under `Shooting.SINGLE` writes through
the `x0` view into the receiver. -/
def sAlias : Solution :=
  { ocp := { nlp := [idNLP, idNLP], phase_transitions := [fun _ => [1]] },
    vector := [],
    is_interpolated := false, is_integrated := false, is_merged := false,
    _states := [[("all", [[5]]), ("q", [[5]])],
                [("all", [[7], [8]]), ("q", [[7], [8]])]],
    _controls := [[("all", [[4]])], [("all", [[3], [3]])]],
    _parameters := [("all", [[2]])],
    phase_time := [0, 1, 1], ns := [0, 1] }

/-- A coherent two-phase Solution (`ns = [1, 2]`, durations `1` and `3/2`)
used to exercise `merge_phases`. -/
def sTwo : Solution :=
  { ocp := { nlp := [idNLP, { idNLP with ns := 2 }], phase_transitions := [] },
    vector := [],
    is_interpolated := false, is_integrated := false, is_merged := false,
    _states := [[("all", [[1], [2]]), ("q", [[1], [2]])],
                [("all", [[3], [4], [5]]), ("q", [[3], [4], [5]])]],
    _controls := [[("all", [[6], [6]])], [("all", [[7], [8], [8]])]],
    _parameters := [("all", [[2]])],
    phase_time := [0, 1, 2], ns := [1, 2] }

/-- A two-phase Solution whose phases disagree on their key sets. -/
def sIncoherent : Solution :=
  { sTwo with
    _states := [[("all", [[1], [2]])],
                [("all", [[3], [4], [5]]), ("q", [[3], [4], [5]])]] }

/-- A two-phase Solution whose phases share the key set but disagree on the
row count of `"q"`. -/
def sRowMismatch : Solution :=
  { sTwo with
    _states := [[("all", [[1], [2]]), ("q", [[1], [2]])],
                [("all", [[3], [4], [5]]), ("q", [[3, 9], [4, 9], [5, 9]])]] }


/-! ## Claim theorems -/

/-- Successful `integrate` always marks its result integrated. -/
theorem integrate_ok_is_integrated (s : Solution) (sh : Shooting) (m c : Bool)
    (out : Solution) (h : (s.integrate sh m c).1 = .ok out) :
    out.is_integrated = true := by
  unfold Solution.integrate at h
  repeat' split at h
  all_goals try (cases h)
  all_goals try rfl

/-- C1: `integrate` fails with an `InvalidStateTransition` error whenever the
receiver is already integrated, interpolated or merged; and since a
successful `integrate` marks its result integrated, integrating a Solution
produced by `integrate` always fails with "Cannot integrate twice". -/
theorem C1_integrate_guards (s : Solution) (sh : Shooting) (m c : Bool) :
    ((s.is_integrated = true ∨ s.is_interpolated = true ∨ s.is_merged = true) →
      ∃ e, (s.integrate sh m c).1 = .error e ∧ IsInvalidStateTransition e)
    ∧ (isOkE (s.integrate sh m c).1 = true →
        ∀ sh' m' c' : _,
          ((resSol (s.integrate sh m c).1).integrate sh' m' c').1
            = .error integrateTwiceErr) := by
  constructor
  · intro hflag
    by_cases h1 : s.is_integrated
    · exact ⟨integrateTwiceErr, by simp [Solution.integrate, h1], Or.inl rfl⟩
    · by_cases h2 : s.is_interpolated
      · exact ⟨integrateAfterInterpErr, by simp [Solution.integrate, h1, h2],
          Or.inr (Or.inl rfl)⟩
      · have h3 : s.is_merged = true := by
          rcases hflag with h | h | h
          · exact absurd h h1
          · exact absurd h h2
          · exact h
        exact ⟨integrateAfterMergeErr, by simp [Solution.integrate, h1, h2, h3],
          Or.inr (Or.inr rfl)⟩
  · intro hok sh' m' c'
    rcases hr : (s.integrate sh m c).1 with e | o
    · rw [hr] at hok
      simp [isOkE] at hok
    · have h := integrate_ok_is_integrated s sh m c o hr
      simp [hr, resSol, Solution.integrate, h]

/-- C9: on a single-phase or already-merged Solution, `merge_phases` is a
data-level no-op: the returned instance carries identical states, controls,
phase-time and node counts (only `is_merged` is set). -/
theorem C9_merge_phases_noop (s : Solution)
    (h : s.is_merged = true ∨ s._states.length = 1) :
    isOkE s.merge_phases = true
      ∧ statesOf s.merge_phases = s._states
      ∧ controlsOf s.merge_phases = s._controls
      ∧ ptOf s.merge_phases = s.phase_time
      ∧ nsOf s.merge_phases = s.ns := by
  have hcond : (s.is_merged || s._states.length == 1) = true := by
    rcases h with h | h <;> simp [h]
  simp [Solution.merge_phases, Solution._merge_phases, hcond, isOkE, statesOf,
    controlsOf, ptOf, nsOf, resSol, bind, Except.bind]

/-- C9 witness: merging the fresh single-phase Solution changes no data. -/
theorem C9_merge_phases_noop_witness :
    isOkE sFresh.merge_phases = true
      ∧ statesOf sFresh.merge_phases = sFresh._states
      ∧ controlsOf sFresh.merge_phases = sFresh._controls
      ∧ ptOf sFresh.merge_phases = sFresh.phase_time
      ∧ nsOf sFresh.merge_phases = sFresh.ns :=
  C9_merge_phases_noop sFresh (Or.inr rfl)

/-- C10: the parameter-entry validation of `init_from_initial_guess` is dead
code.  A three-entry input whose entries are all guess lists is rejected by
the first sanity check (`sum(isinstance(s, InitialGuessList)) != 2` counts 3)
with the generic initializer error, and an input that does reach the
parameter check with `len(sol) == 3` is accepted without any shape
validation: here the third entry has vector shape `(2, 1)` although
`n_param = 1`, and the checks return normally — the promised `ValueError`
about the parameter vector is never raised. -/
theorem C10_param_validation_dead :
    initGuessChecks 1 1 [.igl [⟨(1, 1)⟩], .igl [⟨(1, 1)⟩], .igl [⟨(2, 1)⟩]]
        = .error guessCountErr
    ∧ initGuessChecks 1 1 [.igl [⟨(1, 1)⟩], .igl [⟨(1, 1)⟩], .rawList [⟨(2, 1)⟩]]
        = .ok () := by
  constructor <;> decide

/-- Flags of a successful `integrate`: integrated is always newly set (the
guards force all three flags false beforehand), interpolated stays false, and
merged equals the `merge_phases` argument. -/
theorem integrate_ok_flags (s : Solution) (sh : Shooting) (m c : Bool)
    (out : Solution) (h : (s.integrate sh m c).1 = .ok out) :
    out.is_integrated = true ∧ out.is_interpolated = false
      ∧ out.is_merged = m := by
  unfold Solution.integrate at h
  repeat' split at h
  all_goals try (cases h)
  all_goals simp_all

/-- Flags of a successful `interpolate`: interpolated is set, integrated is
carried over, and merged is forced to true exactly by the single-`int` form. -/
theorem interpolate_ok_flags (s : Solution)
    (f : List ℤ → List ℤ → List ℤ → List ℤ) (nf : NFrames) (out : Solution)
    (h : s.interpolate f nf = .ok out) :
    out.is_interpolated = true ∧ out.is_integrated = s.is_integrated
      ∧ out.is_merged = (match nf with | .int _ => true | .list _ => s.is_merged) := by
  unfold Solution.interpolate at h
  rcases nf with n | l
  all_goals simp only [bind, Except.bind] at h
  all_goals repeat' split at h
  all_goals try (cases h)
  all_goals simp_all

/-- Flags of a successful `merge_phases`: merged is set, the rest carried. -/
theorem merge_ok_flags (s : Solution) (out : Solution)
    (h : s.merge_phases = .ok out) :
    out.is_merged = true ∧ out.is_integrated = s.is_integrated
      ∧ out.is_interpolated = s.is_interpolated := by
  unfold Solution.merge_phases at h
  simp only [bind, Except.bind] at h
  repeat' split at h
  all_goals try (cases h)
  all_goals simp_all

/-- C7 (counterexample): "exactly one flag transitions false→true per call"
is false on both sides.  `integrate(MULTIPLE, merge_phases=True)` on the
fresh Solution succeeds and newly sets *two* flags (integrated and merged),
and `merge_phases` on an already-merged Solution succeeds newly setting
*zero* flags. -/
theorem C7_one_flag_cex :
    Except.map (fun o => newFlags sFresh o) (sFresh.integrate .MULTIPLE true true).1
        = .ok 2
    ∧ Except.map (fun o => newFlags sDone o) sDone.merge_phases = .ok 0 := by
  constructor <;> decide

/-- C7 (amended): per successful call, the newly set flags are exactly —
`integrate`: integrated, plus merged iff `merge_phases=True` was passed
(never interpolated); `interpolate`: interpolated (unless already set), plus
merged when called with a single `int` frame count; `merge_phases`: merged
(nothing when the receiver was already merged).  So a call newly sets zero,
one or two flags, not always exactly one. -/
theorem C7_flags_per_call :
    (∀ (s : Solution) (sh : Shooting) (m c : Bool),
        isOkE (s.integrate sh m c).1 = true →
        (resSol (s.integrate sh m c).1).is_integrated = true
          ∧ (resSol (s.integrate sh m c).1).is_interpolated = false
          ∧ (resSol (s.integrate sh m c).1).is_merged = m)
    ∧ (∀ (s : Solution) (f : List ℤ → List ℤ → List ℤ → List ℤ) (nf : NFrames),
        isOkE (s.interpolate f nf) = true →
        (resSol (s.interpolate f nf)).is_interpolated = true
          ∧ (resSol (s.interpolate f nf)).is_integrated = s.is_integrated
          ∧ (resSol (s.interpolate f nf)).is_merged
              = (match nf with | .int _ => true | .list _ => s.is_merged))
    ∧ (∀ s : Solution, isOkE s.merge_phases = true →
        (resSol s.merge_phases).is_merged = true
          ∧ (resSol s.merge_phases).is_integrated = s.is_integrated
          ∧ (resSol s.merge_phases).is_interpolated = s.is_interpolated) := by
  refine ⟨fun s sh m c hok => ?_, fun s f nf hok => ?_, fun s hok => ?_⟩
  · rcases hr : (s.integrate sh m c).1 with e | o
    · rw [hr] at hok; simp [isOkE] at hok
    · simpa [resSol] using integrate_ok_flags s sh m c o hr
  · rcases hr : s.interpolate f nf with e | o
    · rw [hr] at hok; simp [isOkE] at hok
    · have hfl := interpolate_ok_flags s f nf o hr
      rcases nf with n | l <;> simpa [resSol] using hfl
  · rcases hr : s.merge_phases with e | o
    · rw [hr] at hok; simp [isOkE] at hok
    · simpa [resSol] using merge_ok_flags s o hr

/-- C7 witness: the flag characterization applied to a concrete successful
merging integration. -/
theorem C7_flags_per_call_witness :
    (resSol (sFresh.integrate .MULTIPLE true true).1).is_integrated = true
      ∧ (resSol (sFresh.integrate .MULTIPLE true true).1).is_interpolated = false
      ∧ (resSol (sFresh.integrate .MULTIPLE true true).1).is_merged = true :=
  C7_flags_per_call.1 sFresh .MULTIPLE true true (by decide)

/-- `_complete_control` on well-typed phases: positional characterization. -/
theorem complete_control_ok (nlps : List SimplifiedNLP) (controls : List Dict)
    (hgood : ∀ nlp ∈ nlps, nlp.control_type = .CONSTANT
        ∨ nlp.control_type = .LINEAR_CONTINUOUS)
    (hlen : nlps.length ≤ controls.length) :
    isOkE (_complete_control nlps controls) = true
      ∧ ∀ p : ℕ, p < nlps.length →
          (((nlps.getD p defaultNLP).control_type = .CONSTANT →
              (resList (_complete_control nlps controls)).getD p []
                = dupLastDict (controls.getD p []))
            ∧ ((nlps.getD p defaultNLP).control_type = .LINEAR_CONTINUOUS →
              (resList (_complete_control nlps controls)).getD p []
                = controls.getD p [])) := by
  induction nlps generalizing controls with
  | nil => exact ⟨rfl, fun p hp => absurd hp (by simp)⟩
  | cons nlp nlps ih =>
      rcases controls with _ | ⟨c, cs⟩
      · simp at hlen
      · have hlen' : nlps.length ≤ cs.length := by simpa using hlen
        have hgood' : ∀ x ∈ nlps, x.control_type = .CONSTANT
            ∨ x.control_type = .LINEAR_CONTINUOUS :=
          fun x hx => hgood x (List.mem_cons_of_mem _ hx)
        obtain ⟨hok, hchar⟩ := ih cs hgood' hlen'
        rcases hr : _complete_control nlps cs with e | rest
        · rw [hr] at hok; simp [isOkE] at hok
        · have hcc : _complete_control (nlp :: nlps) (c :: cs)
              = .ok ((if nlp.control_type = .CONSTANT then dupLastDict c else c)
                      :: rest) := by
            rcases hgood nlp (List.mem_cons_self _ _) with h | h <;>
              simp [_complete_control, h, hr, bind, Except.bind]
          refine ⟨by simp [hcc, isOkE], fun p hp => ?_⟩
          rcases p with _ | p
          · constructor
            · intro hcst
              simp only [List.getD_cons_zero] at hcst
              simp [hcc, resList, hcst]
            · intro hl
              simp only [List.getD_cons_zero] at hl
              simp [hcc, resList, hl]
          · have hc := hchar p (by simpa using hp)
            rw [hr] at hc
            simp only [resList] at hc
            constructor
            · intro hcst
              simp only [List.getD_cons_succ] at hcst ⊢
              rw [hcc]
              simpa [resList] using hc.1 hcst
            · intro hl
              simp only [List.getD_cons_succ] at hl ⊢
              rw [hcc]
              simpa [resList] using hc.2 hl

/-- `_complete_control` on a phase with any other control type raises the
`NotImplementedError` naming that control type. -/
theorem complete_control_bad (nlps : List SimplifiedNLP) (controls : List Dict)
    (hbad : ∃ p : ℕ, p < nlps.length ∧ p < controls.length ∧
        (nlps.getD p defaultNLP).control_type ≠ .CONSTANT ∧
        (nlps.getD p defaultNLP).control_type ≠ .LINEAR_CONTINUOUS) :
    ∃ ct : ControlType, ct ≠ .CONSTANT ∧ ct ≠ .LINEAR_CONTINUOUS ∧
      _complete_control nlps controls
        = .error (.notImplementedError (completeControlMsg ct)) := by
  induction nlps generalizing controls with
  | nil => obtain ⟨p, hp, -⟩ := hbad; simp at hp
  | cons nlp nlps ih =>
      obtain ⟨p, hp1, hp2, hb1, hb2⟩ := hbad
      rcases controls with _ | ⟨c, cs⟩
      · simp at hp2
      · by_cases hgoodhead : nlp.control_type = .CONSTANT
            ∨ nlp.control_type = .LINEAR_CONTINUOUS
        · have hp0 : p ≠ 0 := by
            intro h0
            rw [h0] at hb1 hb2
            simp at hb1 hb2
            rcases hgoodhead with h | h <;> simp_all
          obtain ⟨q, hq⟩ := Nat.exists_eq_succ_of_ne_zero hp0
          subst hq
          obtain ⟨ct, hc1, hc2, heq⟩ := ih cs
            ⟨q, by simpa using hp1, by simpa using hp2,
              by simpa using hb1, by simpa using hb2⟩
          rcases hgoodhead with h | h
          · exact ⟨ct, hc1, hc2, by
              simp [_complete_control, h, heq, bind, Except.bind]⟩
          · exact ⟨ct, hc1, hc2, by
              simp [_complete_control, h, heq, bind, Except.bind]⟩
        · push_neg at hgoodhead
          refine ⟨nlp.control_type, hgoodhead.1, hgoodhead.2, ?_⟩
          rcases hct : nlp.control_type with _ | _ | _
          · exact absurd hct hgoodhead.1
          · exact absurd hct hgoodhead.2
          · simp [_complete_control, hct]

/-- The data shape of `dupLastDict`: every entry of a `CONSTANT` phase's
completed dictionary is its original array with one extra column, the
duplicate of the previously last column. -/
theorem dupLastDict_shape (d : Dict) :
    ∀ kv ∈ dupLastDict d,
      ∃ m : Mat, (kv.1, m) ∈ d ∧ kv.2 = m ++ [lastColD m]
        ∧ kv.2.length = m.length + 1 ∧ kv.2.getLastD [] = lastColD m := by
  intro kv hkv
  simp only [dupLastDict, List.mem_map] at hkv
  obtain ⟨⟨k, m⟩, hmem, hEq⟩ := hkv
  cases hEq
  exact ⟨m, hmem, rfl, by simp, by simp⟩

/-- C4: after decoding, `_complete_control` duplicates the last control
column of every `CONSTANT`-control phase (each control array gains exactly
one column, equal to its previously last one — so an array with one column
fewer than the state series ends up matching it, e.g. 2 control columns
become 3 with the third equal to the second), leaves `LINEAR_CONTINUOUS`
phases unchanged, and fails with the unsupported-control-type error for any
other control type. -/
theorem C4_complete_control (nlps : List SimplifiedNLP) (controls : List Dict) :
    ((∀ nlp ∈ nlps, nlp.control_type = .CONSTANT
          ∨ nlp.control_type = .LINEAR_CONTINUOUS) →
      nlps.length ≤ controls.length →
      isOkE (_complete_control nlps controls) = true
        ∧ ∀ p : ℕ, p < nlps.length →
            (((nlps.getD p defaultNLP).control_type = .CONSTANT →
                (resList (_complete_control nlps controls)).getD p []
                  = dupLastDict (controls.getD p [])
                ∧ ∀ kv ∈ dupLastDict (controls.getD p []),
                    ∃ m : Mat, (kv.1, m) ∈ controls.getD p []
                      ∧ kv.2 = m ++ [lastColD m]
                      ∧ kv.2.length = m.length + 1
                      ∧ kv.2.getLastD [] = lastColD m)
              ∧ ((nlps.getD p defaultNLP).control_type = .LINEAR_CONTINUOUS →
                (resList (_complete_control nlps controls)).getD p []
                  = controls.getD p [])))
    ∧ ((∃ p : ℕ, p < nlps.length ∧ p < controls.length ∧
          (nlps.getD p defaultNLP).control_type ≠ .CONSTANT ∧
          (nlps.getD p defaultNLP).control_type ≠ .LINEAR_CONTINUOUS) →
        ∃ ct : ControlType, ct ≠ .CONSTANT ∧ ct ≠ .LINEAR_CONTINUOUS ∧
          _complete_control nlps controls
            = .error (.notImplementedError (completeControlMsg ct))) := by
  constructor
  · intro hgood hlen
    obtain ⟨hok, hchar⟩ := complete_control_ok nlps controls hgood hlen
    refine ⟨hok, fun p hp => ?_⟩
    obtain ⟨h1, h2⟩ := hchar p hp
    exact ⟨fun hc => ⟨h1 hc, dupLastDict_shape _⟩, h2⟩
  · exact complete_control_bad nlps controls

/-- C4 witness: the spec's end-to-end scenario — a single `CONSTANT` phase
whose control array has 2 columns ends with 3 columns, the third equal to
the second. -/
theorem C4_complete_control_witness :
    (resList (_complete_control [idNLP] [[("all", [[5], [5]])]])).getD 0 []
        = [("all", [[5], [5], [5]])]
      ∧ isOkE (_complete_control [idNLP] [[("all", [[5], [5]])]]) = true := by
  have h := (C4_complete_control [idNLP] [[("all", [[5], [5]])]]).1
    (by intro nlp hn; simp at hn; subst hn; exact Or.inl rfl) (by decide)
  obtain ⟨hok, hchar⟩ := h
  obtain ⟨h1, -⟩ := hchar 0 (by decide)
  refine ⟨?_, hok⟩
  rw [(h1 (by decide)).1]
  decide

/-- A successful dict lookup yields an entry of the dict. -/
theorem lookup_mem {d : Dict} {k : String} {m : Mat}
    (h : d.lookup k = some m) : (k, m) ∈ d := by
  induction d with
  | nil => simp [List.lookup] at h
  | cons kv d ih =>
      rw [show kv = (kv.1, kv.2) from rfl, List.lookup_cons] at h
      by_cases hk : k == kv.1
      · have hk' : k = kv.1 := by simpa using hk
        simp [hk] at h
        have hkv : (k, m) = kv := by rw [hk', ← h]
        rw [hkv]
        exact List.mem_cons_self _ _
      · simp [hk] at h
        exact List.mem_cons_of_mem _ (ih h)

/-- A successful dict lookup means the key is listed. -/
theorem lookup_mem_keys {d : Dict} {k : String} {m : Mat}
    (h : d.lookup k = some m) : k ∈ keysOf d := by
  have := lookup_mem h
  simp only [keysOf, List.mem_map]
  exact ⟨(k, m), this, rfl⟩

/-- `dget` agrees with a successful lookup. -/
theorem dget_eq_of_lookup {d : Dict} {k : String} {m : Mat}
    (h : d.lookup k = some m) : dget d k = m := by
  simp [dget, h]

/-- `keysMatch` is exactly mutual membership (Python's `dict_keys` set
equality). -/
theorem keysMatch_iff (a b : List String) :
    keysMatch a b = true ↔ ((∀ k ∈ a, k ∈ b) ∧ (∀ k ∈ b, k ∈ a)) := by
  simp [keysMatch, List.all_eq_true]

/-- With equal key lists and no duplicate keys, the row-count list of a dict
is the key-wise image of `dget`. -/
theorem sizesOf_eq_map {d : Dict} {K : List String}
    (hk : keysOf d = K) (hnd : K.Nodup) :
    sizesOf d = K.map (fun k => shape0 (dget d k)) := by
  induction d generalizing K with
  | nil => subst hk; rfl
  | cons kv d ih =>
      obtain ⟨k0, m0⟩ := kv
      rcases K with _ | ⟨k, K⟩
      · cases hk
      · obtain ⟨hk1, hk2⟩ : k0 = k ∧ keysOf d = K := by simpa [keysOf] using hk
        subst hk1
        obtain ⟨hnotin, hnd'⟩ := List.nodup_cons.mp hnd
        have hhead : dget ((k0, m0) :: d) k0 = m0 := by
          simp [dget, List.lookup_cons]
        have htail : ∀ k' ∈ K, dget ((k0, m0) :: d) k' = dget d k' := by
          intro k' hk'
          have hne : ¬(k' == k0) = true := by
            simp only [beq_iff_eq]
            rintro rfl
            exact hnotin hk'
          simp [dget, List.lookup_cons, hne]
        have htailmap : K.map (fun k' => shape0 (dget ((k0, m0) :: d) k'))
            = K.map (fun k' => shape0 (dget d k')) :=
          List.map_congr_left (fun k' hk' => by rw [htail k' hk'])
        calc sizesOf ((k0, m0) :: d)
            = shape0 m0 :: sizesOf d := rfl
          _ = shape0 m0 :: K.map (fun k' => shape0 (dget d k')) := by
              rw [ih hk2 hnd']
          _ = _ := by rw [List.map_cons, hhead, htailmap]

/-- A phase failing the coherence test refutes `coherent`. -/
theorem coherent_false {d0 : Dict} {rest : List Dict} {d : Dict}
    (hd : d ∈ d0 :: rest)
    (hfail : (keysMatch (keysOf d) (keysOf d0)
        && (sizesOf d == sizesOf d0)) = false) :
    coherent (d0 :: rest) = false := by
  simp only [coherent]
  rw [List.all_eq_false]
  exact ⟨d, hd, by simp [hfail]⟩

/-- `merge_phases` propagates the error of `_merge_phases`. -/
theorem merge_phases_error {s : Solution} {e : PyErr}
    (h : s._merge_phases false false false = .error e) :
    s.merge_phases = .error e := by
  simp [Solution.merge_phases, h, bind, Except.bind]

/-- An incoherent multi-phase state list makes `_merge_phases` raise. -/
theorem _merge_phases_incoherent {s : Solution}
    (hm : s.is_merged = false) (h2 : 2 ≤ s._states.length)
    (hc : coherent s._states = false) :
    s._merge_phases false false false = .error coherenceErr := by
  have hcond : (s.is_merged || s._states.length == 1) = false := by
    rcases hL : s._states.length with _ | n
    · omega
    · simp [hm, hL]
      omega
  have hne : s._states.isEmpty = false := by
    rcases hs : s._states with _ | _
    · rw [hs] at h2; simp at h2
    · rfl
  simp [Solution._merge_phases, hcond, hne, _merge, hc, bind, Except.bind]

/-- C6: a multi-phase merge whose phases disagree — on their key sets, or on
the row count of a shared key (with the dictionaries listing their keys in a
common duplicate-free order, as the decoder produces them) — fails with the
cross-phase coherence error rather than concatenating anything. -/
theorem C6_merge_incoherent (s : Solution)
    (hm : s.is_merged = false) (h2 : 2 ≤ s._states.length) :
    ((∃ dp ∈ s._states, ∃ dq ∈ s._states,
        keysMatch (keysOf dp) (keysOf dq) = false) →
      s.merge_phases = .error coherenceErr)
    ∧ ((∀ d ∈ s._states, keysOf d = keysOf (s._states.headD []))
        → (keysOf (s._states.headD [])).Nodup
        → (∃ k : String, ∃ dp ∈ s._states, ∃ dq ∈ s._states, ∃ m1 m2 : Mat,
            dp.lookup k = some m1 ∧ dq.lookup k = some m2
              ∧ shape0 m1 ≠ shape0 m2)
        → s.merge_phases = .error coherenceErr) := by
  rcases hs : s._states with _ | ⟨d0, rest⟩
  · rw [hs] at h2; simp at h2
  constructor
  · rintro ⟨dp, hdp, dq, hdq, hfail⟩
    refine merge_phases_error (_merge_phases_incoherent hm h2 ?_)
    rw [hs]
    by_cases hp : keysMatch (keysOf dp) (keysOf d0) = true
    · by_cases hq : keysMatch (keysOf dq) (keysOf d0) = true
      · exfalso
        rw [keysMatch_iff] at hp hq
        have : keysMatch (keysOf dp) (keysOf dq) = true := by
          rw [keysMatch_iff]
          exact ⟨fun k hk => hq.2 k (hp.1 k hk), fun k hk => hp.2 k (hq.1 k hk)⟩
        rw [this] at hfail
        cases hfail
      · exact coherent_false hdq (by simp [Bool.eq_false_iff.mpr hq])
    · exact coherent_false hdp (by simp [Bool.eq_false_iff.mpr hp])
  · rintro hkeys hnd ⟨k, dp, hdp, dq, hdq, m1, m2, h1, h2', hne⟩
    simp only [List.headD_cons] at hkeys hnd
    refine merge_phases_error (_merge_phases_incoherent hm h2 ?_)
    rw [hs]
    have hkp := hkeys dp hdp
    have hkq := hkeys dq hdq
    by_cases hp : sizesOf dp = sizesOf d0
    · by_cases hq : sizesOf dq = sizesOf d0
      · exfalso
        have hmp := sizesOf_eq_map hkp hnd
        have hmq := sizesOf_eq_map hkq hnd
        have hmaps : (keysOf d0).map (fun k => shape0 (dget dp k))
            = (keysOf d0).map (fun k => shape0 (dget dq k)) := by
          rw [← hmp, ← hmq, hp, hq]
        have hkmem : k ∈ keysOf d0 := by
          rw [← hkp]; exact lookup_mem_keys h1
        rw [List.map_inj_left] at hmaps
        have := hmaps k hkmem
        rw [dget_eq_of_lookup h1, dget_eq_of_lookup h2'] at this
        exact hne this
      · exact coherent_false hdq (by simp [hq])
    · exact coherent_false hdp (by simp [hp])

/-- C6 witness: both mismatch kinds on concrete two-phase Solutions, via the
theorem (key-set mismatch) and directly comparable row counts. -/
theorem C6_merge_incoherent_witness :
    sIncoherent.merge_phases = .error coherenceErr
    ∧ sRowMismatch.merge_phases = .error coherenceErr :=
  ⟨(C6_merge_incoherent sIncoherent rfl (by decide)).1
      ⟨[("all", [[1], [2]])], by decide,
       [("all", [[3], [4], [5]]), ("q", [[3], [4], [5]])], by decide, by decide⟩,
   (C6_merge_incoherent sRowMismatch rfl (by decide)).2
      (by decide) (by decide)
      ⟨"q", [("all", [[1], [2]]), ("q", [[1], [2]])], by decide,
        [("all", [[3], [4], [5]]), ("q", [[3, 9], [4, 9], [5, 9]])], by decide,
        [[1], [2]], [[3, 9], [4, 9], [5, 9]], by decide, by decide, by decide⟩⟩

/-- `matFromRows` always has exactly the requested number of columns. -/
theorem matFromRows_length (rows : List (List ℤ)) (n : ℕ) :
    (matFromRows rows n).length = n := by
  simp [matFromRows]

/-- A row-slice keeps the column count. -/
theorem rowSlice_length (m : Mat) (off sz : ℕ) :
    (rowSlice m off sz).length = m.length := by
  simp [rowSlice]

/-- Every named entry produced by `interpKeysGo` is a row-slice of the
interpolated `"all"` array, hence has its column count. -/
theorem interpKeysGo_cols (allM : Mat) :
    ∀ (off : ℕ) (d : Dict), ∀ kv ∈ interpKeysGo allM off d,
      kv.2.length = allM.length := by
  intro off d
  induction d generalizing off with
  | nil => simp [interpKeysGo]
  | cons kv0 rest ih =>
      intro kv hkv
      unfold interpKeysGo at hkv
      split at hkv
      · exact ih _ kv hkv
      · rcases List.mem_cons.mp hkv with hkv | hkv
        · rw [hkv]
          exact rowSlice_length _ _ _
        · exact ih _ kv hkv

/-- Every array of a successfully interpolated phase has exactly the
requested number of columns. -/
theorem interpPhase_cols {interp : List ℤ → List ℤ → List ℤ → List ℤ}
    {pt : List ℤ} {frames : List ℕ} {p : ℕ} {d out : Dict}
    (h : interpPhase interp pt frames p d = .ok out) :
    ∀ kv ∈ out, kv.2.length = frames.getD p 0 := by
  simp only [interpPhase] at h
  split at h
  · cases h
    intro kv hkv
    rcases List.mem_cons.mp hkv with hkv | hkv
    · rw [hkv]
      exact matFromRows_length _ _
    · rw [interpKeysGo_cols _ _ _ kv hkv]
      exact matFromRows_length _ _
  · cases h

/-- Positional column counts across the interpolation loop. -/
theorem interpLoop_cols {interp : List ℤ → List ℤ → List ℤ → List ℤ}
    {pt : List ℤ} {frames : List ℕ} :
    ∀ (p0 : ℕ) (ds out : List Dict),
      interpLoop interp pt frames p0 ds = .ok out →
      out.length = ds.length
        ∧ ∀ j : ℕ, ∀ kv ∈ out.getD j [], kv.2.length = frames.getD (p0 + j) 0 := by
  intro p0 ds
  induction ds generalizing p0 with
  | nil =>
      intro out h
      cases h
      exact ⟨rfl, fun j kv hkv => by simp at hkv⟩
  | cons d ds ih =>
      intro out h
      unfold interpLoop at h
      simp only [bind, Except.bind] at h
      rcases hph : interpPhase interp pt frames p0 d with e | d'
      · rw [hph] at h; cases h
      · rw [hph] at h
        rcases hlp : interpLoop interp pt frames (p0 + 1) ds with e | rest
        · rw [hlp] at h; cases h
        · rw [hlp] at h
          cases h
          obtain ⟨hlen, hcols⟩ := ih (p0 + 1) rest hlp
          refine ⟨by simp [hlen], fun j kv hkv => ?_⟩
          rcases j with _ | j
          · simpa using interpPhase_cols hph kv (by simpa using hkv)
          · have := hcols j kv (by simpa using hkv)
            rwa [show p0 + 1 + j = p0 + (j + 1) by omega] at this

/-- Inversion of the single-`int` branch of `interpolate`. -/
theorem interpolate_int_inv (s : Solution)
    (f : List ℤ → List ℤ → List ℤ → List ℤ) (N : ℕ) (o : Solution)
    (h : s.interpolate f (.int N) = .ok o) :
    ∃ r st, s._merge_phases false true false = .ok r
      ∧ interpLoop f r.2.2.1 [N] 0 r.1 = .ok st ∧ o._states = st := by
  unfold Solution.interpolate at h
  simp only [bind, Except.bind] at h
  rcases hmp : s._merge_phases false true false with e | r
  · rw [hmp] at h; cases h
  · rw [hmp] at h
    dsimp only [] at h
    rcases hil : interpLoop f r.2.2.1 [N] 0 r.1 with e | st
    · rw [hil] at h; cases h
    · rw [hil] at h
      cases h
      exact ⟨r, st, rfl, hil, rfl⟩

/-- Inversion of the list branch of `interpolate` (under the length guard
that branch enforces). -/
theorem interpolate_list_inv (s : Solution)
    (f : List ℤ → List ℤ → List ℤ → List ℤ) (l : List ℕ) (o : Solution)
    (hl : l.length = s._states.length)
    (h : s.interpolate f (.list l) = .ok o) :
    ∃ st, interpLoop f s.phase_time l 0 s._states = .ok st
      ∧ o._states = st := by
  simp only [Solution.interpolate] at h
  rw [if_pos (by simp [hl])] at h
  simp only [bind, Except.bind] at h
  rcases hil : interpLoop f s.phase_time l 0 s._states with e | st
  · rw [hil] at h; cases h
  · rw [hil] at h
    cases h
    exact ⟨st, rfl, rfl⟩

/-- A not-yet-merged Solution's `_merge_phases` yields at most one phase. -/
theorem _merge_phases_length (s : Solution) (hm : s.is_merged = false)
    (sk1 sk2 sk3 : Bool) (r : List Dict × List Dict × List ℤ × List ℕ)
    (h : s._merge_phases sk1 sk2 sk3 = .ok r) : r.1.length ≤ 1 := by
  unfold Solution._merge_phases at h
  split at h
  · cases h
    rename_i hcond
    rw [hm] at hcond
    simp at hcond
    simp [hcond]
  · simp only [bind, Except.bind] at h
    by_cases hb1 : (!sk1 && !s._states.isEmpty) = true
    · rw [if_pos hb1] at h
      rcases hmg : _merge s.ns sk3 s._states with e | ms
      · rw [hmg] at h; cases h
      · rw [hmg] at h
        dsimp only [] at h
        have hms : ms.length ≤ 1 := by
          unfold _merge at hmg
          split at hmg
          · cases hmg; simp
          · cases hmg
        by_cases hb2 : (!sk2 && !s._controls.isEmpty) = true
        · rw [if_pos hb2] at h
          rcases hmg2 : _merge s.ns sk3 s._controls with e | cs
          · rw [hmg2] at h; cases h
          · rw [hmg2] at h; cases h; simpa using hms
        · rw [if_neg hb2] at h; cases h; simpa using hms
    · rw [if_neg hb1] at h
      by_cases hb2 : (!sk2 && !s._controls.isEmpty) = true
      · rw [if_pos hb2] at h
        rcases hmg2 : _merge s.ns sk3 s._controls with e | cs
        · rw [hmg2] at h; cases h
        · rw [hmg2] at h; cases h; simp
      · rw [if_neg hb2] at h; cases h; simp

/-- A list of length at most one containing `d` is exactly `[d]`. -/
theorem eq_singleton_of_mem_of_len_le_one {α : Type} {l : List α} {d : α}
    (hlen : l.length ≤ 1) (hd : d ∈ l) : l = [d] := by
  rcases l with _ | ⟨x, t⟩
  · cases hd
  · rcases t with _ | ⟨y, t⟩
    · obtain rfl := List.mem_singleton.mp hd
      rfl
    · simp at hlen

/-- C5: `interpolate` with a single `int` count `N ≥ 2` implicitly merges
(setting both `merged` and `interpolated`) and every array of every state
dictionary of the result has exactly `N` columns; with a per-phase list of
counts matching the phase count, no merge occurs (the merged flag is carried
unchanged) and phase `j`'s arrays get exactly `l[j]` columns. -/
theorem C5_interpolate_frames (s : Solution)
    (f : List ℤ → List ℤ → List ℤ → List ℤ) :
    (∀ N : ℕ, 2 ≤ N → s.is_merged = false →
      isOkE (s.interpolate f (.int N)) = true →
      (resSol (s.interpolate f (.int N))).is_merged = true
        ∧ (resSol (s.interpolate f (.int N))).is_interpolated = true
        ∧ ∀ d ∈ statesOf (s.interpolate f (.int N)), ∀ kv ∈ d,
            kv.2.length = N)
    ∧ (∀ l : List ℕ, l.length = s._states.length →
      isOkE (s.interpolate f (.list l)) = true →
      (resSol (s.interpolate f (.list l))).is_merged = s.is_merged
        ∧ (resSol (s.interpolate f (.list l))).is_interpolated = true
        ∧ ∀ j : ℕ, ∀ kv ∈ (statesOf (s.interpolate f (.list l))).getD j [],
            kv.2.length = l.getD j 0) := by
  constructor
  · intro N hN hm hok
    rcases hr : s.interpolate f (.int N) with e | o
    · rw [hr] at hok; simp [isOkE] at hok
    · have hfl := interpolate_ok_flags s f (.int N) o hr
      obtain ⟨r, st, hmp, hil, hst⟩ := interpolate_int_inv s f N o hr
      have hl1 : r.1.length ≤ 1 := _merge_phases_length s hm _ _ _ _ hmp
      obtain ⟨hlen, hcols⟩ := interpLoop_cols 0 r.1 st hil
      refine ⟨by simp [hr, resSol, hfl.2.2], by simp [hr, resSol, hfl.1], ?_⟩
      intro d hd kv hkv
      have hdst : d ∈ st := by
        rw [← hst]
        simpa [statesOf, resSol, hr] using hd
      have hstlen : st.length ≤ 1 := hlen ▸ hl1
      have hsing := eq_singleton_of_mem_of_len_le_one hstlen hdst
      have := hcols 0 kv (by rw [hsing]; simpa using hkv)
      simpa using this
  · intro l hlenl hok
    rcases hr : s.interpolate f (.list l) with e | o
    · rw [hr] at hok; simp [isOkE] at hok
    · have hfl := interpolate_ok_flags s f (.list l) o hr
      obtain ⟨st, hil, hst⟩ := interpolate_list_inv s f l o hlenl hr
      obtain ⟨hlen, hcols⟩ := interpLoop_cols 0 s._states st hil
      refine ⟨by simp [hr, resSol, hfl.2.2], by simp [hr, resSol, hfl.1], ?_⟩
      intro j kv hkv
      have := hcols j kv (by rw [← hst]; simpa [statesOf, resSol, hr] using hkv)
      simpa using this

/-- C5 witness: interpolating the two-phase Solution to 3 frames merges and
yields 3-column arrays; the per-phase list form keeps the phases unmerged. -/
theorem C5_interpolate_frames_witness :
    ((resSol (sTwo.interpolate (fun _ _ q => q.map (fun _ => 0)) (.int 3))).is_merged
        = true)
    ∧ ∀ d ∈ statesOf (sTwo.interpolate (fun _ _ q => q.map (fun _ => 0)) (.int 3)),
        ∀ kv ∈ d, kv.2.length = 3 := by
  have h := (C5_interpolate_frames sTwo (fun _ _ q => q.map (fun _ => 0))).1
    3 (by decide) rfl (by decide)
  exact ⟨h.1, h.2.2⟩

/-- `take n` of an `(n+1)`-column array is "all columns but the last". -/
theorem take_eq_dropLast {α : Type} {l : List α} {n : ℕ}
    (h : l.length = n + 1) : l.take n = l.dropLast := by
  rw [List.dropLast_eq_take l, h]
  simp

/-- A listed key always has a lookup value. -/
theorem lookup_isSome_of_mem_keys {d : Dict} {k : String}
    (h : k ∈ keysOf d) : ∃ m, d.lookup k = some m := by
  induction d with
  | nil => simp [keysOf] at h
  | cons kv d ih =>
      obtain ⟨k0, m0⟩ := kv
      have h' : k = k0 ∨ k ∈ keysOf d := by simpa [keysOf] using h
      by_cases he : (k == k0) = true
      · exact ⟨m0, by simp [List.lookup_cons, he]⟩
      · rcases h' with rfl | h'
        · simp at he
        · obtain ⟨m, hm⟩ := ih h'
          exact ⟨m, by simp [List.lookup_cons, he, hm]⟩

/-- The per-key tail of the merge accumulation, starting at phase `p`. -/
def joinFrom (ns : List ℕ) : ℕ → List Dict → String → Mat
  | _, [], _ => []
  | p, d :: ds, k => (dget d k).take (ns.getD p 0) ++ joinFrom ns (p + 1) ds k

/-- Closed form of `mergeLoop`: every accumulated key receives the
concatenation of its per-phase `take ns[p]` slices. -/
theorem mergeLoop_eq (ns : List ℕ) :
    ∀ (ds : List Dict) (p : ℕ) (acc : Dict),
      mergeLoop ns p acc ds
        = acc.map (fun kv => (kv.1, kv.2 ++ joinFrom ns p ds kv.1)) := by
  intro ds
  induction ds with
  | nil =>
      intro p acc
      simp [mergeLoop, joinFrom, Prod.mk.eta]
  | cons d ds ih =>
      intro p acc
      simp only [mergeLoop, joinFrom]
      rw [ih, List.map_map]
      apply List.map_congr_left
      intro kv _
      simp [List.append_assoc]

/-- Closed form of `_merge` (without the skip-last-copy variant) on coherent
data. -/
theorem _merge_eq (ns : List ℕ) (data : List Dict)
    (hco : coherent data = true) :
    _merge ns false data
      = .ok [(data.headD []).map (fun kv =>
          (kv.1, joinFrom ns 0 data kv.1
            ++ [lastColD (dget (data.getLastD []) kv.1)]))] := by
  simp only [_merge]
  rw [if_pos hco, mergeLoop_eq]
  simp only [Bool.false_eq_true, if_false, List.map_map]
  refine congrArg (fun x => Except.ok [x]) ?_
  apply List.map_congr_left
  intro kv _
  simp

/-- The per-key merge value equals the claim's formulation: all columns but
the last from every phase, then the final phase's last column — provided each
phase's arrays carry `ns[p] + 1` columns. -/
theorem joinFrom_eq_flatten (ns : List ℕ) :
    ∀ (p : ℕ) (ds : List Dict) (k : String),
      (∀ j : ℕ, ∀ kv ∈ ds.getD j [], (kv.2 : Mat).length = ns.getD (p + j) 0 + 1) →
      (∀ d ∈ ds, k ∈ keysOf d) →
      joinFrom ns p ds k = (ds.map (fun d => (dget d k).dropLast)).flatten := by
  intro p ds
  induction ds generalizing p with
  | nil => intro k _ _; simp [joinFrom]
  | cons d ds ih =>
      intro k hcols hkeys
      simp only [joinFrom, List.map_cons, List.flatten_cons]
      obtain ⟨m, hm⟩ := lookup_isSome_of_mem_keys (hkeys d (List.mem_cons_self _ _))
      have hlen : m.length = ns.getD p 0 + 1 := by
        have := hcols 0 (k, m) (by simpa using lookup_mem hm)
        simpa using this
      rw [dget_eq_of_lookup hm, take_eq_dropLast hlen]
      congr 1
      apply ih
      · intro j kv hkv
        have := hcols (j + 1) kv (by simpa using hkv)
        rwa [show p + (j + 1) = p + 1 + j by omega] at this
      · exact fun d' hd' => hkeys d' (List.mem_cons_of_mem _ hd')

/-- Uniform key lists and row-count lists satisfy the coherence check. -/
theorem coherent_of_uniform {data : List Dict}
    (hkeys : ∀ d ∈ data, keysOf d = keysOf (data.headD []))
    (hsizes : ∀ d ∈ data, sizesOf d = sizesOf (data.headD [])) :
    coherent data = true := by
  rcases data with _ | ⟨d0, rest⟩
  · rfl
  · simp only [coherent]
    rw [List.all_eq_true]
    intro d hd
    have h1 := hkeys d hd
    have h2 := hsizes d hd
    simp only [List.headD_cons] at h1 h2
    have hk : keysMatch (keysOf d) (keysOf d0) = true := by
      rw [keysMatch_iff, h1]
      exact ⟨fun k hk => hk, fun k hk => hk⟩
    simp [hk, h2]

/-- `_merge` of uniformly-shaped data equals the claim-side `mergeSpec`. -/
theorem _merge_eq_spec (ns : List ℕ) (data : List Dict)
    (hkeys : ∀ d ∈ data, keysOf d = keysOf (data.headD []))
    (hsizes : ∀ d ∈ data, sizesOf d = sizesOf (data.headD []))
    (hcols : ∀ j : ℕ, ∀ kv ∈ data.getD j [], (kv.2 : Mat).length = ns.getD j 0 + 1) :
    _merge ns false data = .ok [mergeSpec data] := by
  rw [_merge_eq ns data (coherent_of_uniform hkeys hsizes)]
  simp only [mergeSpec]
  refine congrArg (fun x => Except.ok [x]) ?_
  apply List.map_congr_left
  intro kv hkv
  have hkmem : ∀ d ∈ data, kv.1 ∈ keysOf d := by
    intro d hd
    rw [hkeys d hd]
    rcases data with _ | ⟨d0, rest⟩
    · cases hd
    · simp only [List.headD_cons] at hkv ⊢
      exact List.mem_map.mpr ⟨kv, hkv, rfl⟩
  rw [joinFrom_eq_flatten ns 0 data kv.1 (by simpa using hcols) hkmem]

/-- The non-degenerate path of `_merge_phases` (no skips). -/
theorem _merge_phases_eq (s : Solution)
    (hm : s.is_merged = false) (h2 : 2 ≤ s._states.length)
    (hcne : s._controls.isEmpty = false)
    (os oc : List Dict)
    (hms : _merge s.ns false s._states = .ok os)
    (hmc : _merge s.ns false s._controls = .ok oc) :
    s._merge_phases false false false
      = .ok (os, oc, [0, (s.phase_time.drop 1).sum], [s.ns.sum]) := by
  have hcond : ¬(s.is_merged || s._states.length == 1) = true := by
    rw [hm]
    simp
    omega
  have hsne : s._states.isEmpty = false := by
    rcases hs : s._states with _ | _
    · rw [hs] at h2; simp at h2
    · rfl
  unfold Solution._merge_phases
  rw [if_neg hcond]
  simp [bind, Except.bind, hsne, hcne, hms, hmc]

/-- C3: merging a multi-phase, not-yet-merged Solution (with the uniform key
sets, row counts, and the `ns[p] + 1` column counts the decoder guarantees)
concatenates every named state and control array column-wise: all columns but
the last from each phase, plus the final phase's last column; the merged node
count is the sum of the per-phase node counts and the merged phase-time is
`[0, total duration]` (0 followed by the sum of the per-phase durations). -/
theorem C3_merge_concatenates (s : Solution)
    (hm : s.is_merged = false) (h2 : 2 ≤ s._states.length)
    (hcl : s._controls.length = s._states.length)
    (hkeysS : ∀ d ∈ s._states, keysOf d = keysOf (s._states.headD []))
    (hsizesS : ∀ d ∈ s._states, sizesOf d = sizesOf (s._states.headD []))
    (hkeysC : ∀ d ∈ s._controls, keysOf d = keysOf (s._controls.headD []))
    (hsizesC : ∀ d ∈ s._controls, sizesOf d = sizesOf (s._controls.headD []))
    (hcolsS : ∀ j : ℕ, j < s._states.length → ∀ kv ∈ s._states.getD j [],
        (kv.2 : Mat).length = s.ns.getD j 0 + 1)
    (hcolsC : ∀ j : ℕ, j < s._controls.length → ∀ kv ∈ s._controls.getD j [],
        (kv.2 : Mat).length = s.ns.getD j 0 + 1) :
    isOkE s.merge_phases = true
      ∧ statesOf s.merge_phases = [mergeSpec s._states]
      ∧ controlsOf s.merge_phases = [mergeSpec s._controls]
      ∧ nsOf s.merge_phases = [s.ns.sum]
      ∧ ptOf s.merge_phases = [0, (s.phase_time.drop 1).sum] := by
  have hcne : s._controls.isEmpty = false := by
    rcases hc : s._controls with _ | _
    · rw [hc] at hcl
      simp at hcl
      omega
    · rfl
  have hcolsS' : ∀ j : ℕ, ∀ kv ∈ s._states.getD j [],
      (kv.2 : Mat).length = s.ns.getD j 0 + 1 := by
    intro j kv hkv
    by_cases hj : j < s._states.length
    · exact hcolsS j hj kv hkv
    · rw [List.getD_eq_getElem?_getD, List.getElem?_eq_none (by omega)] at hkv
      cases hkv
  have hcolsC' : ∀ j : ℕ, ∀ kv ∈ s._controls.getD j [],
      (kv.2 : Mat).length = s.ns.getD j 0 + 1 := by
    intro j kv hkv
    by_cases hj : j < s._controls.length
    · exact hcolsC j hj kv hkv
    · rw [List.getD_eq_getElem?_getD, List.getElem?_eq_none (by omega)] at hkv
      cases hkv
  have hmp := _merge_phases_eq s hm h2 hcne [mergeSpec s._states] [mergeSpec s._controls]
    (_merge_eq_spec s.ns s._states hkeysS hsizesS hcolsS')
    (_merge_eq_spec s.ns s._controls hkeysC hsizesC hcolsC')
  simp [Solution.merge_phases, hmp, bind, Except.bind, isOkE, statesOf,
    controlsOf, nsOf, ptOf, resSol]

/-- C3 witness: the concrete two-phase Solution merges to the concatenated
data, `ns = [3]`, and phase-time `[0, 3]` (durations 1 and 2). -/
theorem C3_merge_concatenates_witness :
    statesOf sTwo.merge_phases
        = [[("all", [[1], [3], [4], [5]]), ("q", [[1], [3], [4], [5]])]]
      ∧ controlsOf sTwo.merge_phases
        = [[("all", [[6], [7], [8], [8]])]]
      ∧ nsOf sTwo.merge_phases = [3]
      ∧ ptOf sTwo.merge_phases = [0, 3] := by
  have h := C3_merge_concatenates sTwo rfl (by decide) (by decide)
    (by decide) (by decide) (by decide) (by decide) (by decide) (by decide)
  refine ⟨?_, ?_, ?_, ?_⟩
  · rw [h.2.1]; decide
  · rw [h.2.2.1]; decide
  · rw [h.2.2.2.1]; decide
  · rw [h.2.2.2.2]; decide

/-- Under `SINGLE` shooting the node loop turns `x0` into a view of the
fresh `integrated` temporary after its first iteration: the alias record
comes out `none` unless no node ran. -/
theorem nodeLoop_al_single (dyn : ℕ → Col → Mat → Mat → Mat)
    (ct : ControlType) (stp ncw p : ℕ) (selfAll controlsAll params : Mat) :
    ∀ (fuel n : ℕ) (all : Mat) (x0 : Col) (al : Option (ℕ × ℕ))
      (res : Mat × Col × Option (ℕ × ℕ)),
      nodeLoop dyn ct .SINGLE stp ncw p selfAll controlsAll params
          fuel n all x0 al = .ok res →
      res.2.2 = (if fuel = 0 then al else none) := by
  intro fuel
  induction fuel with
  | zero =>
      intro n all x0 al res h
      cases h
      rfl
  | succ fuel ih =>
      intro n all x0 al res h
      unfold nodeLoop at h
      simp only [bind, Except.bind] at h
      rcases hu : getU ct controlsAll n with e | u
      · rw [hu] at h; cases h
      · rw [hu] at h
        dsimp only [] at h
        split at h
        · have := ih _ _ _ _ _ h
          rcases fuel with _ | fuel <;> simpa using this
        · cases h

/-- `phaseStart` under a mode other than `SINGLE` resets `x0` to the
phase's first decoded column; the receiver is untouched. -/
theorem phaseStart_not_single (transitions : List (Col → Col)) (vec : Col)
    (sh : Shooting) (hsh : ¬sh = .SINGLE) (p : ℕ) (selfAll : Mat) (x0 : Col)
    (al : Option (ℕ × ℕ)) (st : List Dict) :
    phaseStart transitions vec sh p selfAll x0 al st
      = .ok (colGet selfAll 0, some (p, 0), st) := by
  simp [phaseStart, hsh]

/-- `phaseStart` at phase 0 is the identity on `x0`, alias and receiver. -/
theorem phaseStart_zero (transitions : List (Col → Col)) (vec : Col)
    (sh : Shooting) (hsh : sh = .SINGLE) (selfAll : Mat) (x0 : Col)
    (al : Option (ℕ × ℕ)) (st : List Dict) :
    phaseStart transitions vec sh 0 selfAll x0 al st = .ok (x0, al, st) := by
  simp [phaseStart, hsh]

/-- `phaseStart` under `SINGLE` with a dead alias keeps the alias dead and
the receiver untouched. -/
theorem phaseStart_single_none (transitions : List (Col → Col)) (vec : Col)
    (p : ℕ) (selfAll : Mat) (x0 : Col) (st : List Dict)
    {res : Col × Option (ℕ × ℕ) × List Dict}
    (h : phaseStart transitions vec .SINGLE p selfAll x0 none st = .ok res) :
    res.2.1 = none ∧ res.2.2 = st := by
  unfold phaseStart at h
  rw [if_pos rfl] at h
  by_cases hp : p ≠ 0
  · rw [if_pos hp] at h
    by_cases hv : ((transitions.getD (p - 1) (fun _ => [])) vec).length = x0.length
    · rw [if_pos hv] at h
      cases h
      exact ⟨rfl, rfl⟩
    · rw [if_neg hv] at h
      cases h
  · rw [if_neg hp] at h
    cases h
    exact ⟨rfl, rfl⟩

/-- Outside `SINGLE` shooting, the phase loop never writes into the
receiver's states. -/
theorem phaseLoop_st_not_single (nlps : List SimplifiedNLP)
    (transitions : List (Col → Col)) (vec : Col) (nsSelf : List ℕ)
    (controls : List Dict) (params : Mat) (sh : Shooting) (continuous : Bool)
    (hsh : ¬sh = .SINGLE) :
    ∀ (fuel p : ℕ) (x0 : Col) (al : Option (ℕ × ℕ)) (st : List Dict),
      (phaseLoop nlps transitions vec nsSelf controls params sh continuous
        fuel p x0 al st).2 = st := by
  intro fuel
  induction fuel with
  | zero => intro p x0 al st; rfl
  | succ fuel ih =>
      intro p x0 al st
      simp only [phaseLoop]
      rw [phaseStart_not_single transitions vec sh hsh]
      dsimp only []
      split
      · rfl
      · rename_i allM x0₂ al₂ heq
        rcases hrec : phaseLoop nlps transitions vec nsSelf controls params sh
            continuous fuel (p + 1) x0₂ al₂ st with ⟨res, st₂⟩
        have h2 : st₂ = st := by
          have := ih (p + 1) x0₂ al₂ st
          rw [hrec] at this
          exact this
        rcases res with e | ⟨ds, nss⟩ <;> simp [h2]

/-- Under `SINGLE` shooting with a dead alias (`x0` viewing a temporary),
the phase loop never writes into the receiver's states. -/
theorem phaseLoop_st_single_none (nlps : List SimplifiedNLP)
    (transitions : List (Col → Col)) (vec : Col) (nsSelf : List ℕ)
    (controls : List Dict) (params : Mat) (continuous : Bool) :
    ∀ (fuel p : ℕ) (x0 : Col) (st : List Dict),
      (phaseLoop nlps transitions vec nsSelf controls params .SINGLE continuous
        fuel p x0 none st).2 = st := by
  intro fuel
  induction fuel with
  | zero => intro p x0 st; rfl
  | succ fuel ih =>
      intro p x0 st
      simp only [phaseLoop]
      rcases hps : phaseStart transitions vec .SINGLE p
          (dget (st.getD p []) "all") x0 none st with e | ⟨x0₁, al₁, st₁⟩
      · rfl
      · obtain ⟨hal, hst⟩ := phaseStart_single_none transitions vec p _ x0 st hps
        dsimp only [] at hal hst
        subst hal
        subst hst
        dsimp only []
        split
        · rfl
        · rename_i allM x0₂ al₂ heq2
          have hal2 : al₂ = none := by
            have := nodeLoop_al_single _ _ _ _ _ _ _ _ _ _ _ _ _ _ heq2
            rcases Nat.eq_zero_or_pos (nsSelf.getD p 0) with hz | hz
            · simpa [hz] using this
            · simpa [Nat.pos_iff_ne_zero.mp hz] using this
          subst hal2
          rcases hrec : phaseLoop nlps transitions vec nsSelf controls params
              .SINGLE continuous fuel (p + 1) x0₂ none st₁ with ⟨res, st₂⟩
          have h2 : st₂ = st₁ := by
            have := ih (p + 1) x0₂ st₁
            rw [hrec] at this
            exact this
          rcases res with e | ⟨ds, nss⟩ <;> simp [h2]

/-- The phase loop as `integrate` enters it (phase 0, live alias `(0, 0)`)
leaves the receiver's states untouched whenever the shooting mode is not
`SINGLE`, or the first phase has at least one shooting interval, or there is
at most one phase to process. -/
theorem phaseLoop_st_main (nlps : List SimplifiedNLP)
    (transitions : List (Col → Col)) (vec : Col) (nsSelf : List ℕ)
    (controls : List Dict) (params : Mat) (sh : Shooting) (continuous : Bool)
    (fuel : ℕ) (x0 : Col) (st : List Dict)
    (h : ¬sh = .SINGLE ∨ 1 ≤ nsSelf.getD 0 0 ∨ fuel ≤ 1) :
    (phaseLoop nlps transitions vec nsSelf controls params sh continuous
      fuel 0 x0 (some (0, 0)) st).2 = st := by
  by_cases hsh : sh = .SINGLE
  · subst hsh
    rcases fuel with _ | fuel
    · rfl
    · simp only [phaseLoop]
      rw [phaseStart_zero transitions vec .SINGLE rfl]
      dsimp only []
      split
      · rfl
      · rename_i allM x0₂ al₂ heq2
        have halz := nodeLoop_al_single _ _ _ _ _ _ _ _ _ _ _ _ _ _ heq2
        rcases fuel with _ | fuel
        · rfl
        · have hns : 1 ≤ nsSelf.getD 0 0 := by
            rcases h with h | h | h
            · exact absurd rfl h
            · exact h
            · omega
          have hal2 : al₂ = none := by
            have h' : al₂ = if nsSelf.getD 0 0 = 0 then some ((0 : ℕ), (0 : ℕ)) else none := halz
            rw [h', if_neg (by omega : ¬nsSelf.getD 0 0 = 0)]
          subst hal2
          rcases hrec : phaseLoop nlps transitions vec nsSelf controls params
              .SINGLE continuous (fuel + 1) 1 x0₂ none st with ⟨res, st₂⟩
          have h2 : st₂ = st := by
            have := phaseLoop_st_single_none nlps transitions vec nsSelf
              controls params continuous (fuel + 1) 1 x0₂ st
            rw [hrec] at this
            exact this
          rcases res with e | ⟨ds, nss⟩ <;> simp [h2]
  · exact phaseLoop_st_not_single nlps transitions vec nsSelf controls params
      sh continuous hsh fuel 0 x0 (some (0, 0)) st

/-- C2 (counterexample): on the degenerate two-phase Solution whose first
phase has zero shooting intervals, `integrate` under `Shooting.SINGLE`
succeeds *and* adds the phase-transition value into the receiver's first
decoded state column in place (through the numpy view `x0` still holds):
the receiver's `"all"` entry of phase 0 changes from `[[5]]` to `[[6]]`. -/
theorem C2_single_mutates_cex :
    isOkE (sAlias.integrate .SINGLE false true).1 = true
    ∧ (sAlias.integrate .SINGLE false true).2
        = [[("all", [[6]]), ("q", [[5]])],
           [("all", [[7], [8]]), ("q", [[7], [8]])]]
    ∧ (sAlias.integrate .SINGLE false true).2 ≠ sAlias._states := by
  exact ⟨by decide, by decide, by decide⟩

/-- C2 (amended): the three transforms operate on copies and never modify
the receiver's decoded data or flags — except that `integrate` under
`Shooting.SINGLE` with at least two phases whose first phase has zero
shooting intervals adds the phase-transition value into the receiver's first
state column in place.  Whenever the shooting mode is not `SINGLE`, or the
first phase has at least one interval, or there are at most one phase, the
receiver's states after `integrate` (also on error) are exactly the
originals. -/
theorem C2_integrate_receiver_unchanged (s : Solution) (sh : Shooting)
    (m c : Bool)
    (h : ¬sh = .SINGLE ∨ 1 ≤ s.ns.getD 0 0 ∨ s._states.length ≤ 1) :
    (s.integrate sh m c).2 = s._states := by
  unfold Solution.integrate
  split
  · rfl
  · split
    · rfl
    · split
      · rfl
      · split
        · rfl
        · have hpl := phaseLoop_st_main s.ocp.nlp s.ocp.phase_transitions
            s.vector s.ns s._controls (dget s._parameters "all") sh c
            s._states.length (colGet (dget (s._states.getD 0 []) "all") 0)
            s._states h
          rcases hrec : phaseLoop s.ocp.nlp s.ocp.phase_transitions s.vector
              s.ns s._controls (dget s._parameters "all") sh c
              s._states.length 0 (colGet (dget (s._states.getD 0 []) "all") 0)
              (some (0, 0)) s._states with ⟨res, st₂⟩
          rw [hrec] at hpl
          rcases res with e | resOk
          · simpa using hpl
          · obtain ⟨os, onss⟩ := resOk
            dsimp only []
            split
            · split
              · simpa using hpl
              · simpa using hpl
            · simpa using hpl

/-- C2 witness: a `MULTIPLE` integration of the fresh Solution leaves the
receiver's states untouched. -/
theorem C2_integrate_receiver_unchanged_witness :
    (sFresh.integrate .MULTIPLE false true).2 = sFresh._states :=
  C2_integrate_receiver_unchanged sFresh .MULTIPLE false true
    (Or.inl (by decide))

/-- Column read after a single column write. -/
theorem getD_set_eq : ∀ (l : Mat) (i j : ℕ) (c : Col),
    (l.set i c).getD j []
      = if i = j ∧ j < l.length then c else l.getD j []
  | [], i, j, c => by simp
  | x :: xs, 0, 0, c => by simp
  | x :: xs, 0, j + 1, c => by simp
  | x :: xs, i + 1, 0, c => by simp
  | x :: xs, i + 1, j + 1, c => by
      simp only [List.set, List.getD_cons_succ]
      rw [getD_set_eq xs i j c]
      by_cases h : i = j ∧ j < xs.length
      · rw [if_pos h, if_pos (by constructor <;> [omega; (simp only [List.length_cons]; omega)])]
      · rw [if_neg h, if_neg (by simp only [List.length_cons]; omega)]

/-- `writeCols` keeps the column count. -/
theorem writeCols_length : ∀ (cs m : Mat) (i : ℕ),
    (writeCols m i cs).length = m.length
  | [], _, _ => rfl
  | c :: cs, m, i => by
      simp only [writeCols]
      rw [writeCols_length cs]
      simp

/-- Column read after a block write: inside the written window the new
columns are read (relative index), outside the old array shows through. -/
theorem writeCols_getD : ∀ (cs m : Mat) (i j : ℕ),
    (writeCols m i cs).getD j []
      = if i ≤ j ∧ j < i + cs.length ∧ j < m.length then cs.getD (j - i) []
        else m.getD j []
  | [], m, i, j => by
      simp only [writeCols, List.length_nil]
      rw [if_neg (by omega)]
  | c :: cs, m, i, j => by
      simp only [writeCols, List.length_cons]
      rw [writeCols_getD cs (m.set i c) (i + 1) j, List.length_set]
      by_cases h1 : (i + 1 ≤ j ∧ j < i + 1 + cs.length ∧ j < m.length)
      · rw [if_pos h1, if_pos (by omega)]
        have hji : j - i = (j - (i + 1)) + 1 := by omega
        rw [hji, List.getD_cons_succ]
      · rw [if_neg h1, getD_set_eq]
        by_cases h2 : i = j ∧ j < m.length
        · rw [if_pos h2, if_pos (by omega)]
          obtain ⟨rfl, -⟩ := h2
          simp
        · rw [if_neg h2, if_neg (by omega)]

/-- Reading a replicated block. -/
theorem getD_replicate {k t : ℕ} (x : Col) (h : t < k) :
    (List.replicate k x).getD t [] = x := by
  rw [List.getD_eq_getElem?_getD, List.getElem?_replicate]
  simp [h]

/-- The node loop of `integrate` under `MULTIPLE` shooting with identity
dynamics (every `xall` column equals the input state), continuous mode:
it succeeds and fills the window `[n*stp, (n+fuel)*stp]` with the decoded
columns — position `j` holds decoded column `min (j / stp) (n + fuel - 1)`. -/
theorem nodeLoop_multiple_id (dyn : ℕ → Col → Mat → Mat → Mat)
    (ct : ControlType) (stp p : ℕ) (selfAll controlsAll params : Mat)
    (hstp : 1 ≤ stp)
    (hct : ct = .CONSTANT ∨ ct = .LINEAR_CONTINUOUS)
    (hdyn : ∀ (n : ℕ) (x0 : Col) (u : Mat),
      dyn n x0 u params = List.replicate (stp + 1) x0) :
    ∀ (fuel n : ℕ) (all : Mat) (al : Option (ℕ × ℕ)),
      ∃ allF x0F alF,
        nodeLoop dyn ct .MULTIPLE stp (stp + 1) p selfAll controlsAll params
            fuel n all (colGet selfAll n) al = .ok (allF, x0F, alF)
        ∧ allF.length = all.length
        ∧ ∀ j : ℕ, j < all.length →
            allF.getD j []
              = if n * stp ≤ j ∧ j ≤ (n + fuel) * stp ∧ 0 < fuel
                then colGet selfAll (min (j / stp) (n + fuel - 1))
                else all.getD j [] := by
  intro fuel
  induction fuel with
  | zero =>
      intro n all al
      exact ⟨all, colGet selfAll n, al, rfl, rfl, fun j hj => by simp⟩
  | succ fuel ih =>
      intro n all al
      obtain ⟨u, hu⟩ : ∃ u, getU ct controlsAll n = .ok u := by
        rcases hct with h | h
        · exact ⟨[colGet controlsAll n], by subst h; rfl⟩
        · exact ⟨(controlsAll.drop n).take 2, by subst h; rfl⟩
      obtain ⟨allF, x0F, alF, hok, hlen, hchar⟩ :=
        ih (n + 1) (writeCols all (n * stp) (List.replicate (stp + 1) (colGet selfAll n)))
          (some (p, n + 1))
      refine ⟨allF, x0F, alF, ?_, ?_, ?_⟩
      · unfold nodeLoop
        simp only [bind, Except.bind, hu]
        rw [hdyn]
        rw [if_pos (by simp)]
        simpa using hok
      · rw [hlen, writeCols_length]
      · intro j hj
        have hAB : n * stp ≤ (n + 1) * stp := Nat.mul_le_mul_right _ (by omega)
        have hBC : (n + 1) * stp ≤ (n + 1 + fuel) * stp :=
          Nat.mul_le_mul_right _ (by omega)
        have hBA : (n + 1) * stp = n * stp + stp := by ring
        have hCeq : (n + (fuel + 1)) * stp = (n + 1 + fuel) * stp := by ring
        have hj1 : j < (writeCols all (n * stp)
            (List.replicate (stp + 1) (colGet selfAll n))).length := by
          rw [writeCols_length]; exact hj
        have hc := hchar j hj1
        rw [writeCols_getD] at hc
        simp only [List.length_replicate] at hc
        by_cases hA : (n + 1) * stp ≤ j ∧ j ≤ (n + 1 + fuel) * stp ∧ 0 < fuel
        · rw [if_pos hA] at hc
          rw [hc, if_pos ⟨by omega, by rw [hCeq]; exact hA.2.1, by omega⟩]
          rw [show (n + 1 + fuel - 1) = (n + (fuel + 1) - 1) by omega]
        · rw [if_neg hA] at hc
          by_cases hB : n * stp ≤ j ∧ j < n * stp + (stp + 1) ∧ j < all.length
          · rw [if_pos hB] at hc
            rw [hc, getD_replicate _ (by omega)]
            rw [if_pos ⟨hB.1, by rw [hCeq]; omega, by omega⟩]
            have hdiv : min (j / stp) (n + (fuel + 1) - 1) = n := by
              rcases Nat.lt_or_ge j ((n + 1) * stp) with hlt | hge
              · have hd1 : n ≤ j / stp :=
                  (Nat.le_div_iff_mul_le (by omega)).mpr hB.1
                have hd2 : j / stp < n + 1 :=
                  (Nat.div_lt_iff_lt_mul (by omega)).mpr (by omega)
                omega
              · have hje : j = (n + 1) * stp := by omega
                have hfz : fuel = 0 := by
                  by_contra hnz
                  exact hA ⟨hge, by omega, by omega⟩
                subst hfz
                rw [hje, Nat.mul_div_cancel _ (by omega)]
                omega
            rw [hdiv]
          · rw [if_neg hB] at hc
            rw [hc]
            rw [if_neg ?_]
            intro hcond
            obtain ⟨hc1, hc2, -⟩ := hcond
            rw [hCeq] at hc2
            rcases Nat.lt_or_ge j ((n + 1) * stp) with hlt | hge
            · exact hB ⟨hc1, by omega, hj⟩
            · rcases Nat.eq_zero_or_pos fuel with hz | hz
              · subst hz
                have hc2' : j ≤ (n + 1) * stp := by simpa using hc2
                have hje : j = (n + 1) * stp := by omega
                exact hB ⟨by omega, by omega, hj⟩
              · exact hA ⟨hge, hc2, hz⟩

/-- One unfolding of the phase loop under `MULTIPLE` shooting, continuous
mode (all branch conditions reduce definitionally). -/
theorem phaseLoop_multiple_unfold (nlps : List SimplifiedNLP)
    (transitions : List (Col → Col)) (vec : Col) (nsSelf : List ℕ)
    (controls : List Dict) (params : Mat) (fuel p : ℕ) (x0 : Col)
    (al : Option (ℕ × ℕ)) (st : List Dict) :
    phaseLoop nlps transitions vec nsSelf controls params .MULTIPLE true
        (fuel + 1) p x0 al st
      = (match nodeLoop (nlps.getD p defaultNLP).dynamics
            (nlps.getD p defaultNLP).control_type .MULTIPLE
            (nlps.getD p defaultNLP).n_integration_steps
            ((nlps.getD p defaultNLP).n_integration_steps + 1) p
            (dget (st.getD p []) "all") (dget (controls.getD p []) "all") params
            (nsSelf.getD p 0) 0
            (List.replicate
              (((dget (st.getD p []) "all").length - 1)
                  * (nlps.getD p defaultNLP).n_integration_steps + 1)
              (List.replicate (shape0 (dget (st.getD p []) "all")) (0 : ℤ)))
            (colGet (dget (st.getD p []) "all") 0) (some (p, 0)) with
        | .error e => (.error e, st)
        | .ok (allM, x0₂, al₂) =>
            match phaseLoop nlps transitions vec nsSelf controls params
                .MULTIPLE true fuel (p + 1) x0₂ al₂ st with
            | (.error e, st₂) => (.error e, st₂)
            | (.ok (ds, nss), st₂) =>
                (.ok ((("all", allM)
                        :: dispatchKeys allM 0 (nlps.getD p defaultNLP).var_states) :: ds,
                      (nsSelf.getD p 0
                        * (nlps.getD p defaultNLP).n_integration_steps) :: nss),
                  st₂)) := rfl

/-- The first entry of an integrated phase dictionary is its `"all"` array. -/
theorem dget_cons_all (allM : Mat) (rest : Dict) :
    dget (("all", allM) :: rest) "all" = allM := by
  simp [dget, List.lookup_cons]

/-- The phase loop under `MULTIPLE` shooting with identity dynamics:
it succeeds, leaves the receiver untouched, and each produced phase holds an
`"all"` array of `ns[q] * n_steps[q] + 1` columns whose column `i` is the
decoded column `min (i / n_steps[q]) (ns[q] - 1)` of that phase. -/
theorem phaseLoop_multiple_id (nlps : List SimplifiedNLP)
    (transitions : List (Col → Col)) (vec : Col) (nsSelf : List ℕ)
    (controls : List Dict) (params : Mat) :
    ∀ (fuel p : ℕ) (x0 : Col) (al : Option (ℕ × ℕ)) (st : List Dict),
      (∀ q : ℕ, p ≤ q → q < p + fuel →
        1 ≤ (nlps.getD q defaultNLP).n_integration_steps
        ∧ ((nlps.getD q defaultNLP).control_type = .CONSTANT
            ∨ (nlps.getD q defaultNLP).control_type = .LINEAR_CONTINUOUS)
        ∧ (∀ (n : ℕ) (y : Col) (u : Mat),
            (nlps.getD q defaultNLP).dynamics n y u params
              = List.replicate ((nlps.getD q defaultNLP).n_integration_steps + 1) y)
        ∧ (dget (st.getD q []) "all").length = nsSelf.getD q 0 + 1
        ∧ 1 ≤ nsSelf.getD q 0) →
      ∃ ds nss,
        phaseLoop nlps transitions vec nsSelf controls params .MULTIPLE true
            fuel p x0 al st = (.ok (ds, nss), st)
        ∧ ds.length = fuel
        ∧ ∀ j : ℕ, j < fuel →
            (dget (ds.getD j []) "all").length
                = nsSelf.getD (p + j) 0
                    * (nlps.getD (p + j) defaultNLP).n_integration_steps + 1
            ∧ ∀ i : ℕ,
                i < nsSelf.getD (p + j) 0
                    * (nlps.getD (p + j) defaultNLP).n_integration_steps + 1 →
                (dget (ds.getD j []) "all").getD i []
                  = colGet (dget (st.getD (p + j) []) "all")
                      (min (i / (nlps.getD (p + j) defaultNLP).n_integration_steps)
                           (nsSelf.getD (p + j) 0 - 1)) := by
  intro fuel
  induction fuel with
  | zero =>
      intro p x0 al st H
      exact ⟨[], [], rfl, rfl, fun j hj => absurd hj (by omega)⟩
  | succ fuel ih =>
      intro p x0 al st H
      obtain ⟨hstp, hct, hdyn, hsl, hns⟩ := H p (le_refl p) (by omega)
      rw [phaseLoop_multiple_unfold]
      obtain ⟨allF, x0F, alF, hok, hlenF, hchar⟩ :=
        nodeLoop_multiple_id (nlps.getD p defaultNLP).dynamics
          (nlps.getD p defaultNLP).control_type
          (nlps.getD p defaultNLP).n_integration_steps p
          (dget (st.getD p []) "all") (dget (controls.getD p []) "all") params
          hstp hct hdyn (nsSelf.getD p 0) 0
          (List.replicate
            (((dget (st.getD p []) "all").length - 1)
                * (nlps.getD p defaultNLP).n_integration_steps + 1)
            (List.replicate (shape0 (dget (st.getD p []) "all")) (0 : ℤ)))
          (some (p, 0))
      rw [hok]
      dsimp only []
      obtain ⟨ds, nss, hrec, hdsl, hcharr⟩ := ih (p + 1) x0F alF st
        (fun q hq1 hq2 => H q (by omega) (by omega))
      rw [hrec]
      dsimp only []
      refine ⟨_, _, rfl, by simp [hdsl], ?_⟩
      intro j hj
      have hinitlen : (List.replicate
          (((dget (st.getD p []) "all").length - 1)
              * (nlps.getD p defaultNLP).n_integration_steps + 1)
          (List.replicate (shape0 (dget (st.getD p []) "all")) (0 : ℤ))).length
          = nsSelf.getD p 0
              * (nlps.getD p defaultNLP).n_integration_steps + 1 := by
        rw [List.length_replicate, hsl]
        simp
      rcases j with _ | j
      · simp only [List.getD_cons_zero, Nat.add_zero]
        rw [dget_cons_all]
        constructor
        · rw [hlenF, hinitlen]
        · intro i hi
          have hi' : i < (List.replicate
              (((dget (st.getD p []) "all").length - 1)
                  * (nlps.getD p defaultNLP).n_integration_steps + 1)
              (List.replicate (shape0 (dget (st.getD p []) "all")) (0 : ℤ))).length := by
            rw [hinitlen]; exact hi
          have hv := hchar i hi'
          simp only [Nat.zero_add, Nat.zero_mul] at hv
          rw [if_pos ⟨by omega, by omega, hns⟩] at hv
          exact hv
      · have hv := hcharr j (by omega)
        simp only [List.getD_cons_succ]
        rw [show p + (j + 1) = p + 1 + j by omega]
        exact hv

/-- C8 (counterexample): identity-step dynamics (`sFresh`'s dynamics return
`[x0, x0]`) under `MULTIPLE` shooting do *not* reproduce the decoded
trajectory at every node: the decoded states are `[[0, 1]]` but the
integrated result holds `[[0, 0]]` — the final node carries the
identity-propagated value of the last interval start, not the decoded final
state. -/
theorem C8_identity_cex :
    statesOf (sFresh.integrate .MULTIPLE false true).1
        = [[("all", [[0], [0]]), ("q", [[0], [0]])]]
      ∧ sFresh._states = [[("all", [[0], [1]]), ("q", [[0], [1]])]]
      ∧ statesOf (sFresh.integrate .MULTIPLE false true).1 ≠ sFresh._states := by
  exact ⟨by decide, by decide, by decide⟩

/-- C8 (amended): integrating under `MULTIPLE` shooting (continuous, no
merge) with identity step dynamics succeeds and reproduces the decoded state
trajectory exactly at every *interval-start* node `n < ns[p]` of every phase
(`out["all"][:, n*n_steps] = states["all"][:, n]`); the final node instead
holds the identity-propagated value of the last interval, i.e. the decoded
column `ns[p] - 1`, so the full trajectory is reproduced iff the last two
decoded columns coincide. -/
theorem C8_integrate_identity_multiple (s : Solution)
    (h1 : s.is_integrated = false) (h2 : s.is_interpolated = false)
    (h3 : s.is_merged = false) (hne : ¬s._states = [])
    (H : ∀ p : ℕ, p < s._states.length →
      1 ≤ (s.ocp.nlp.getD p defaultNLP).n_integration_steps
      ∧ ((s.ocp.nlp.getD p defaultNLP).control_type = .CONSTANT
          ∨ (s.ocp.nlp.getD p defaultNLP).control_type = .LINEAR_CONTINUOUS)
      ∧ (∀ (n : ℕ) (y : Col) (u : Mat),
          (s.ocp.nlp.getD p defaultNLP).dynamics n y u (dget s._parameters "all")
            = List.replicate ((s.ocp.nlp.getD p defaultNLP).n_integration_steps + 1) y)
      ∧ (dget (s._states.getD p []) "all").length = s.ns.getD p 0 + 1
      ∧ 1 ≤ s.ns.getD p 0) :
    isOkE (s.integrate .MULTIPLE false true).1 = true
      ∧ ∀ p : ℕ, p < s._states.length →
          (∀ n : ℕ, n < s.ns.getD p 0 →
            colGet (dget ((statesOf (s.integrate .MULTIPLE false true).1).getD p []) "all")
                (n * (s.ocp.nlp.getD p defaultNLP).n_integration_steps)
              = colGet (dget (s._states.getD p []) "all") n)
          ∧ colGet (dget ((statesOf (s.integrate .MULTIPLE false true).1).getD p []) "all")
                (s.ns.getD p 0 * (s.ocp.nlp.getD p defaultNLP).n_integration_steps)
              = colGet (dget (s._states.getD p []) "all") (s.ns.getD p 0 - 1) := by
  obtain ⟨ds, nss, hpl, hdsl, hchar⟩ := phaseLoop_multiple_id s.ocp.nlp
    s.ocp.phase_transitions s.vector s.ns s._controls (dget s._parameters "all")
    s._states.length 0 (colGet (dget (s._states.getD 0 []) "all") 0) (some (0, 0))
    s._states (fun q _ hq2 => H q (by omega))
  have hie : ¬s._states.isEmpty = true := by
    rcases hs : s._states with _ | _
    · exact absurd hs hne
    · simp
  have hok : s.integrate .MULTIPLE false true
      = (.ok { s with
                _states := ds,
                _controls := [],
                _parameters := [],
                ns := nss ++ s.ns.drop s._states.length,
                is_integrated := true },
         s._states) := by
    unfold Solution.integrate
    rw [if_neg (by simp [h1]), if_neg (by simp [h2]), if_neg (by simp [h3]),
        if_neg hie, hpl]
    rfl
  simp only [Nat.zero_add] at hchar
  refine ⟨by rw [hok]; rfl, fun p hp => ?_⟩
  have hsts : statesOf (s.integrate .MULTIPLE false true).1 = ds := by
    rw [hok]
    rfl
  rw [hsts]
  obtain ⟨hstp, -, -, -, hns⟩ := H p hp
  obtain ⟨hL, hV⟩ := hchar p (by omega)
  constructor
  · intro n hn
    have hlt : n * (s.ocp.nlp.getD p defaultNLP).n_integration_steps
        < s.ns.getD p 0 * (s.ocp.nlp.getD p defaultNLP).n_integration_steps + 1 := by
      have := Nat.mul_le_mul_right (s.ocp.nlp.getD p defaultNLP).n_integration_steps
        (show n ≤ s.ns.getD p 0 from by omega)
      omega
    have hv := hV (n * (s.ocp.nlp.getD p defaultNLP).n_integration_steps) hlt
    rw [Nat.mul_div_cancel _ (by omega)] at hv
    rw [show min n (s.ns.getD p 0 - 1) = n from by omega] at hv
    exact hv
  · have hv := hV (s.ns.getD p 0 * (s.ocp.nlp.getD p defaultNLP).n_integration_steps)
      (by omega)
    rw [Nat.mul_div_cancel _ (by omega)] at hv
    rw [show min (s.ns.getD p 0) (s.ns.getD p 0 - 1) = s.ns.getD p 0 - 1 from by omega] at hv
    exact hv

/-- C8 witness: the amended theorem applied to a concrete two-node phase
(`states [[3, 7, 9]]`, two intervals, identity dynamics). -/
theorem C8_integrate_identity_multiple_witness :
    isOkE (sTwo.integrate .MULTIPLE false true).1 = true
      ∧ ∀ p : ℕ, p < sTwo._states.length →
          (∀ n : ℕ, n < sTwo.ns.getD p 0 →
            colGet (dget ((statesOf (sTwo.integrate .MULTIPLE false true).1).getD p []) "all")
                (n * (sTwo.ocp.nlp.getD p defaultNLP).n_integration_steps)
              = colGet (dget (sTwo._states.getD p []) "all") n)
          ∧ colGet (dget ((statesOf (sTwo.integrate .MULTIPLE false true).1).getD p []) "all")
                (sTwo.ns.getD p 0 * (sTwo.ocp.nlp.getD p defaultNLP).n_integration_steps)
              = colGet (dget (sTwo._states.getD p []) "all") (sTwo.ns.getD p 0 - 1) :=
  C8_integrate_identity_multiple sTwo rfl rfl rfl (by decide)
    (by
      intro p hp
      have hp2 : p < 2 := by simpa using hp
      interval_cases p
      · exact ⟨by decide, Or.inl rfl, fun n y u => rfl, by decide, by decide⟩
      · exact ⟨by decide, Or.inl rfl, fun n y u => rfl, by decide, by decide⟩)

end Bioptim
